import Mathlib

set_option maxHeartbeats 1000000

/-!
Shallow embedding of the spin-model simulation engines (`ising.py`,
`kawasaki.py`, `wolff.py`, `voter.py`).

Conventions of the embedding:
* a lattice (`numpy` square array of spins) is a function `Grid = ℤ → ℤ → ℤ`;
  the grid size `N` (`state.shape[0]`) is passed separately, and only the
  cells with both coordinates in `[0, N)` are meaningful;
* the `numpy` random generator is a stream `RS` of integer draws
  (`rng.integers`) and real draws (`rng.random`) consulted at an explicit
  counter `k` that advances exactly when the Python code draws;
* fallible operations (indexing an acceptance table out of range,
  `rng.integers(0, 0)` on an empty occupancy list) return `Option`, `none`
  standing for the raised Python exception;
* `%` on `ℤ` is `Int.emod`, which agrees with Python `%` for the positive
  moduli used here.
-/

/-- A square spin lattice: a two-dimensional array of values, indexed by
integer row and column. Cells outside `[0, N)²` are irrelevant junk. -/
abbrev Grid := ℤ → ℤ → ℤ

/-- The coordinate `p` is inside an `N × N` grid. -/
def inR (N : ℕ) (p : ℤ × ℤ) : Prop :=
  0 ≤ p.1 ∧ p.1 < (N : ℤ) ∧ 0 ≤ p.2 ∧ p.2 < (N : ℤ)

instance (N : ℕ) (p : ℤ × ℤ) : Decidable (inR N p) := by
  unfold inR; infer_instance

/-- Every in-range cell of the grid holds `+1` or `-1` (bounded, decidable
formulation used as a hypothesis in the theorems below). -/
def PMGrid (N : ℕ) (s : Grid) : Prop :=
  ∀ i ∈ Finset.Ico (0 : ℤ) (N : ℤ), ∀ j ∈ Finset.Ico (0 : ℤ) (N : ℤ),
    s i j = 1 ∨ s i j = -1

instance (N : ℕ) (s : Grid) : Decidable (PMGrid N s) := by
  unfold PMGrid; infer_instance

theorem PMGrid.at {N : ℕ} {s : Grid} (h : PMGrid N s) {p : ℤ × ℤ}
    (hp : inR N p) : s p.1 p.2 = 1 ∨ s p.1 p.2 = -1 := by
  obtain ⟨h1, h2, h3, h4⟩ := hp
  exact h p.1 (Finset.mem_Ico.mpr ⟨h1, h2⟩) p.2 (Finset.mem_Ico.mpr ⟨h3, h4⟩)

/-- `state[p] = v` on a numpy array: pointwise functional update. -/
def setCell (s : Grid) (p : ℤ × ℤ) (v : ℤ) : Grid :=
  fun i j => if i = p.1 ∧ j = p.2 then v else s i j

/-- `state[p] = -state[p]` (the spin-flip assignment of `ising.py` and
`kawasaki.py`). -/
def flipCell (s : Grid) (p : ℤ × ℤ) : Grid := setCell s p (-(s p.1 p.2))

/-- `state[p] *= -1` (the marker flip of `wolff.py`). -/
def timesNeg (s : Grid) (p : ℤ × ℤ) : Grid := setCell s p (s p.1 p.2 * (-1))

theorem setCell_same (s : Grid) (p : ℤ × ℤ) (v : ℤ) :
    setCell s p v p.1 p.2 = v := by simp [setCell]

theorem setCell_other (s : Grid) (p : ℤ × ℤ) (v : ℤ) {i j : ℤ}
    (h : ¬(i = p.1 ∧ j = p.2)) : setCell s p v i j = s i j := by
  simp only [setCell, if_neg h]

/-- numpy scalar array indexing `a[i]` on a length-`len` axis: plain index
for `0 ≤ i`, wrap-around for negative `i`, exception (`none`) out of range. -/
def npGet {α : Type} (l : List α) (i : ℤ) : Option α :=
  if 0 ≤ i then l.get? i.toNat
  else if (-i).toNat ≤ l.length then l.get? (l.length - (-i).toNat) else none

/-- numpy scalar index validity/wrap for an axis of length `N`
(used for the Wolff seed coordinate). -/
def npIdx (N : ℕ) (i : ℤ) : Option ℤ :=
  if 0 ≤ i ∧ i < (N : ℤ) then some i
  else if -(N : ℤ) ≤ i ∧ i < 0 then some (i + N) else none

/-- Python `int()` truncation (toward zero) of a rational value. -/
def pyInt (q : ℚ) : ℤ := if q < 0 then ⌈q⌉ else ⌊q⌋

/-- The injectable random source: `ints k` is the value of the `k`-th draw
when that draw is `rng.integers(...)`, `reals k` its value when it is
`rng.random()`. A single counter orders all draws, as a single `numpy`
generator does. -/
structure RS where
  ints : ℕ → ℕ
  reals : ℕ → ℝ

/-- Run `n` elementary Monte-Carlo attempts in sequence, propagating a
raised exception (`none`). -/
def iterOpt {σ : Type} (f : σ → Option σ) : ℕ → σ → Option σ
  | 0, s => some s
  | n + 1, s => (f s).bind (iterOpt f n)

/-- Run `n` elementary attempts of an exception-free engine. -/
def iterT {σ : Type} (f : σ → σ) : ℕ → σ → σ
  | 0, s => s
  | n + 1, s => iterT f n (f s)

/-- `get_neighborhood` of `kawasaki.py` (identical to `_get_neighborhood`
of `ising.py`): sum of the four toroidal neighbour spins. -/
def get_neighborhood (N : ℕ) (s : Grid) (pos : ℤ × ℤ) : ℤ :=
  s ((pos.1 + 1) % (N : ℤ)) pos.2
    + s ((pos.1 - 1) % (N : ℤ)) pos.2
    + s pos.1 ((pos.2 + 1) % (N : ℤ))
    + s pos.1 ((pos.2 - 1) % (N : ℤ))

/-! ## Kawasaki engine (`kawasaki.py`) -/

/-- `coord_swap`: exchange entry `p1` of `up` with entry `p2` of `down`
(componentwise via `coord_swap_2` in the source; the temporaries make it the
simultaneous swap embedded here). -/
def coord_swap (up down : List (ℤ × ℤ)) (p1 p2 : ℕ) :
    List (ℤ × ℤ) × List (ℤ × ℤ) :=
  (up.set p1 (down.getD p2 (0, 0)), down.set p2 (up.getD p1 (0, 0)))

/-- The 16-entry Kawasaki acceptance table
`exponent = np.exp(-np.arange(1, 17) * beta)`. -/
noncomputable def kawasakiExponent (β : ℝ) : List ℝ :=
  (List.range 16).map (fun k : ℕ => Real.exp (-((k : ℝ) + 1) * β))

/-- The combined before-quantity
`state[u] * get_neighborhood(state, u) + state[v] * get_neighborhood(state, v)`
(`dEu` of the source; `dEv` is the same expression on the tentatively
flipped state). -/
def kawasakiE (N : ℕ) (s : Grid) (u v : ℤ × ℤ) : ℤ :=
  s u.1 u.2 * get_neighborhood N s u + s v.1 v.2 * get_neighborhood N s v

/-- The energy difference `dEu - dEv` that the Kawasaki update compares
with `0` and uses to index the acceptance table. -/
def kawasakiDelta (N : ℕ) (s : Grid) (u v : ℤ × ℤ) : ℤ :=
  kawasakiE N s u v - kawasakiE N (flipCell (flipCell s u) v) u v

/-- The accept/reject comparison against a fetched acceptance-table entry:
`none` (a raised IndexError) if the fetch failed, otherwise compare the
uniform draw `u` with the entry. -/
noncomputable def tryAccept {σ : Type} (e? : Option ℝ) (u : ℝ)
    (acc rej : Option σ) : Option σ :=
  match e? with
  | none => none
  | some e => if u < e then acc else rej

theorem tryAccept_some {σ : Type} (e : ℝ) (u : ℝ) (acc rej : Option σ) :
    tryAccept (some e) u acc rej = if u < e then acc else rej := rfl

/-- The body of one Kawasaki exchange attempt after the two candidate
sites `u = up[p1]`, `v = down[p2]` have been drawn: tentatively flip both
(`flipCell (flipCell s u) v`), compare `dEu - dEv = kawasakiDelta` with `0`,
on acceptance swap the list entries, on rejection flip both back. -/
noncomputable def kawasakiBody (N : ℕ) (β : ℝ) (rs : RS) (s : Grid)
    (up down : List (ℤ × ℤ)) (k p1 p2 : ℕ) (u v : ℤ × ℤ) :
    Option (Grid × List (ℤ × ℤ) × List (ℤ × ℤ) × ℕ) :=
  if kawasakiDelta N s u v ≤ 0 then
    some (flipCell (flipCell s u) v, (coord_swap up down p1 p2).1,
      (coord_swap up down p1 p2).2, k + 2)
  else
    tryAccept (npGet (kawasakiExponent β) (kawasakiDelta N s u v - 1))
      (rs.reals (k + 2))
      (some (flipCell (flipCell s u) v, (coord_swap up down p1 p2).1,
        (coord_swap up down p1 p2).2, k + 3))
      (some (flipCell (flipCell (flipCell (flipCell s u) v) u) v,
        up, down, k + 3))

/-- One elementary Kawasaki exchange attempt (one iteration of the
`for _ in range(n_steps)` loop of `update_state_kawasaki`). -/
noncomputable def kawasakiStep (N : ℕ) (β : ℝ) (rs : RS) :
    Grid × List (ℤ × ℤ) × List (ℤ × ℤ) × ℕ →
      Option (Grid × List (ℤ × ℤ) × List (ℤ × ℤ) × ℕ)
  | (s, up, down, k) =>
    -- `rng.integers(0, up.shape[0])` raises on an empty list
    if up.length = 0 ∨ down.length = 0 then none
    else
      match up.get? (rs.ints k), down.get? (rs.ints (k + 1)) with
      | some u, some v =>
        kawasakiBody N β rs s up down k (rs.ints k) (rs.ints (k + 1)) u v
      | _, _ => none

/-- `update_state_kawasaki`: one full sweep of `N²` exchange attempts. -/
noncomputable def update_state_kawasaki (up down : List (ℤ × ℤ)) (s : Grid)
    (N : ℕ) (β : ℝ) (rs : RS) (k : ℕ) :
    Option (Grid × List (ℤ × ℤ) × List (ℤ × ℤ) × ℕ) :=
  iterOpt (kawasakiStep N β rs) (N * N) (s, up, down, k)

/-! ## Glauber/Metropolis Ising engine (`ising.py`) -/

/-- The 2-entry acceptance table
`exponent = np.exp(-np.arange(1, 3) * 4 * beta)`. -/
noncomputable def isingExponent (β : ℝ) : List ℝ :=
  (List.range 2).map (fun k : ℕ => Real.exp (-((k : ℝ) + 1) * 4 * β))

/-- The local energy change `dE = 2 * state[pos] * _get_neighborhood(state, pos)`
of `update_state_ising`. -/
def ising_dE (N : ℕ) (s : Grid) (pos : ℤ × ℤ) : ℤ :=
  2 * s pos.1 pos.2 * get_neighborhood N s pos

/-- One elementary attempt of `update_state_ising` on state `s` at the
drawn site `pos` (one iteration of its `for` loop, translated from the
source; the draw of `pos` is in `isingStep`). -/
noncomputable def isingBody (N : ℕ) (β : ℝ) (rs : RS) (s : Grid)
    (pos : ℤ × ℤ) (k : ℕ) : Option (Grid × ℕ) :=
  if ising_dE N s pos ≤ 0 then some (flipCell s pos, k + 2)
  else
    tryAccept (npGet (isingExponent β) (pyInt ((ising_dE N s pos : ℚ) / 4 - 1)))
      (rs.reals (k + 2)) (some (flipCell s pos, k + 3)) (some (s, k + 3))

/-- One elementary attempt of `update_state_ising`: draw
`pos = rng.integers(0, grid_size, size=2)`, then flip or keep. -/
noncomputable def isingStep (N : ℕ) (β : ℝ) (rs : RS) (x : Grid × ℕ) :
    Option (Grid × ℕ) :=
  isingBody N β rs x.1 ((rs.ints x.2 : ℤ), (rs.ints (x.2 + 1) : ℤ)) x.2

/-- `update_state_ising`: one full sweep of `N²` single-spin attempts. -/
noncomputable def update_state_ising (s : Grid) (N : ℕ) (β : ℝ) (rs : RS)
    (k : ℕ) : Option (Grid × ℕ) :=
  iterOpt (isingStep N β rs) (N * N) (s, k)

/-- Modelled from the spec (§4.2): one elementary attempt of the Metropolis
rule it prescribes — `ΔE = 2·spin·neighbourSum`; flip unconditionally when
`ΔE ≤ 0`, otherwise flip exactly when the uniform draw is below
`exp(-ΔE·β)`. Used only to be compared with the source translation. -/
noncomputable def isingStepSpec (N : ℕ) (β : ℝ) (rs : RS) (x : Grid × ℕ) :
    Grid × ℕ :=
  if ising_dE N x.1 ((rs.ints x.2 : ℤ), (rs.ints (x.2 + 1) : ℤ)) ≤ 0 then
    (flipCell x.1 ((rs.ints x.2 : ℤ), (rs.ints (x.2 + 1) : ℤ)), x.2 + 2)
  else
    if rs.reals (x.2 + 2) <
        Real.exp (-(ising_dE N x.1 ((rs.ints x.2 : ℤ),
          (rs.ints (x.2 + 1) : ℤ)) : ℝ) * β) then
      (flipCell x.1 ((rs.ints x.2 : ℤ), (rs.ints (x.2 + 1) : ℤ)), x.2 + 3)
    else (x.1, x.2 + 3)

/-- Modelled from the spec (§4.2): a full Metropolis sweep of `N²`
elementary attempts. -/
noncomputable def isingSweepSpec (s : Grid) (N : ℕ) (β : ℝ) (rs : RS)
    (k : ℕ) : Grid × ℕ :=
  iterT (isingStepSpec N β rs) (N * N) (s, k)

/-! ## Voter engine (`voter.py`) -/

/-- `_get_neighbor` of `voter.py`: the spin of one random cardinal
neighbour (`axis = [0,1][rng.random() < 0.5]`, `dir = [-1,1][rng.random() < 0.5]`,
wrap modulo `N`); returns the read value and the advanced draw counter. -/
noncomputable def get_neighbor (N : ℕ) (s : Grid) (pos : ℤ × ℤ) (rs : RS)
    (k : ℕ) : ℤ × ℕ :=
  (if (if rs.reals k < 1 / 2 then (1 : ℕ) else 0) = 0 then
      s ((pos.1 + (if rs.reals (k + 1) < 1 / 2 then (1 : ℤ) else -1)) %
        (N : ℤ)) pos.2
    else
      s pos.1 ((pos.2 + (if rs.reals (k + 1) < 1 / 2 then (1 : ℤ) else -1)) %
        (N : ℤ)),
    k + 2)

/-- One elementary attempt of `update_state_voter`. -/
noncomputable def voterStep (N : ℕ) (prob : ℝ) (rs : RS) (x : Grid × ℕ) :
    Grid × ℕ :=
  if rs.reals (x.2 + 2) < prob then
    (setCell x.1 ((rs.ints x.2 : ℤ), (rs.ints (x.2 + 1) : ℤ))
      (if rs.reals (x.2 + 3) < 1 / 2 then 1 else -1), x.2 + 4)
  else
    (setCell x.1 ((rs.ints x.2 : ℤ), (rs.ints (x.2 + 1) : ℤ))
      (get_neighbor N x.1 ((rs.ints x.2 : ℤ), (rs.ints (x.2 + 1) : ℤ)) rs
        (x.2 + 3)).1,
      (get_neighbor N x.1 ((rs.ints x.2 : ℤ), (rs.ints (x.2 + 1) : ℤ)) rs
        (x.2 + 3)).2)

/-- `update_state_voter`: one full sweep of `N²` voter attempts. -/
noncomputable def update_state_voter (s : Grid) (N : ℕ) (prob : ℝ) (rs : RS) (k : ℕ) :
    Grid × ℕ :=
  iterT (voterStep N prob rs) (N * N) (s, k)

/-! ## Wolff cluster engine (`wolff.py`) -/

/-- `pos_neighbourhood`: the four toroidal neighbour coordinates, in the
source's fixed order (row+1, row-1, col+1, col-1). -/
def pos_neighbourhood (N : ℕ) (pos : ℤ × ℤ) : List (ℤ × ℤ) :=
  [((pos.1 + 1) % (N : ℤ), pos.2),
   ((pos.1 - 1) % (N : ℤ), pos.2),
   (pos.1, (pos.2 + 1) % (N : ℤ)),
   (pos.1, (pos.2 - 1) % (N : ℤ))]

/-- `np.around`: round half to even. -/
noncomputable def npAround (x : ℝ) : ℤ :=
  if Int.fract x < 1 / 2 then ⌊x⌋
  else if 1 / 2 < Int.fract x then ⌊x⌋ + 1
  else if Even ⌊x⌋ then ⌊x⌋ else ⌊x⌋ + 1

/-- The Wolff seed coordinate computation
`np.around((grid_size - 1) * rng.random())` of `stepMC`. -/
noncomputable def seedIndex (N : ℕ) (u : ℝ) : ℤ :=
  npAround (((N : ℝ) - 1) * u)

/-- The mutable store of one `stepMC` call: the caller's `lattice` array and
the fresh marker array `state`. Python passes both by reference into
`update`, so the embedding threads both; the source only ever assigns into
`state`. -/
structure WSt where
  lat : Grid
  mark : Grid

/-- `update` of `wolff.py`: recursive cluster growth. `state[pos] *= -1`,
then for each of the four neighbours, if it has the same lattice spin
(first condition), a fresh uniform draw is below `P` (second condition,
drawn only when the first holds) and its marker is still `1`, recurse.
The recursion of the source is unbounded; `fuel` bounds the depth in the
embedding — every theorem below holds for every fuel value. -/
noncomputable def update (N : ℕ) (P : ℝ) (rs : ℕ → ℝ) :
    ℕ → WSt → ℤ × ℤ → ℕ → WSt × ℕ
  | 0, st, _, k => (st, k)
  | fuel + 1, st, pos, k =>
    let st1 : WSt := ⟨st.lat, timesNeg st.mark pos⟩
    (pos_neighbourhood N pos).foldl
      (fun ak q =>
        if ak.1.lat pos.1 pos.2 = ak.1.lat q.1 q.2 then
          if rs ak.2 < P ∧ ak.1.mark q.1 q.2 = 1 then
            update N P rs fuel ak.1 q (ak.2 + 1)
          else (ak.1, ak.2 + 1)
        else ak)
      (st1, k)

/-- One neighbour-processing step of the `for i in pos_neighbourhood(...)`
loop of `update` (the folded function above, named for the proofs). -/
noncomputable def updateStep (N : ℕ) (P : ℝ) (rs : ℕ → ℝ) (fuel : ℕ)
    (pos : ℤ × ℤ) (ak : WSt × ℕ) (q : ℤ × ℤ) : WSt × ℕ :=
  if ak.1.lat pos.1 pos.2 = ak.1.lat q.1 q.2 then
    if rs ak.2 < P ∧ ak.1.mark q.1 q.2 = 1 then
      update N P rs fuel ak.1 q (ak.2 + 1)
    else (ak.1, ak.2 + 1)
  else ak

theorem update_succ (N : ℕ) (P : ℝ) (rs : ℕ → ℝ) (fuel : ℕ) (st : WSt)
    (pos : ℤ × ℤ) (k : ℕ) :
    update N P rs (fuel + 1) st pos k =
      (pos_neighbourhood N pos).foldl (updateStep N P rs fuel pos)
        (⟨st.lat, timesNeg st.mark pos⟩, k) := rfl

/-- `stepMC` of `wolff.py`: pick the seed, grow one cluster on a fresh
all-`1` marker grid with `P = 1 - exp(-2·kT)`, and return the elementwise
product `lattice * state`. The result pairs the final store (the caller's
two arrays) with the newly built returned array. -/
noncomputable def stepMC (lattice : Grid) (N : ℕ) (kT : ℝ) (rs : ℕ → ℝ) :
    Option (WSt × Grid) :=
  match npIdx N (seedIndex N (rs 0)), npIdx N (seedIndex N (rs 1)) with
  | some i, some j =>
    let r := update N (1 - Real.exp (-(2 : ℝ) * kT)) rs (N * N)
      ⟨lattice, fun _ _ => 1⟩ (i, j) 2
    some (r.1, fun a b => r.1.lat a b * r.1.mark a b)
  | _, _ => none

/-! ## Generic list and modular-arithmetic helper lemmas -/

theorem getD_of_get? {α : Type} {l : List α} {i : ℕ} {a : α} (d : α)
    (h : l.get? i = some a) : l.getD i d = a := by
  rw [List.getD_eq_get? l i d, h]; rfl

theorem mem_set_self {α : Type} {l : List α} {i : ℕ} (h : i < l.length)
    (a : α) : a ∈ l.set i a := by
  have hb : l.get? i = some (l.get ⟨i, h⟩) := List.get?_eq_get h
  have : (l.set i a).get? i = some a := by
    rw [List.get?_set_eq, hb]; rfl
  exact List.get?_mem this

theorem mem_set_of_ne_idx {α : Type} {l : List α} {i : ℕ} {a b : α}
    (hb : b ∈ l) (hne : l.get? i ≠ some b) : b ∈ l.set i a := by
  obtain ⟨j, hj⟩ := List.mem_iff_get?.mp hb
  have hij : i ≠ j := fun h => hne (h ▸ hj)
  exact List.get?_mem (by rw [List.get?_set_ne a l hij, hj])

theorem mem_set_cases {α : Type} {l : List α} (hnd : l.Nodup) {i : ℕ}
    {a u b : α} (hi : l.get? i = some u) (hb : b ∈ l.set i a) :
    b = a ∨ (b ∈ l ∧ b ≠ u) := by
  obtain ⟨j, hj⟩ := List.mem_iff_get?.mp hb
  by_cases hij : i = j
  · subst hij
    rw [List.get?_set_eq, hi] at hj
    exact Or.inl (Option.some.inj hj).symm
  · rw [List.get?_set_ne a l hij] at hj
    refine Or.inr ⟨List.get?_mem hj, fun hbu => hij ?_⟩
    obtain ⟨hilen, -⟩ := List.get?_eq_some.mp hi
    exact List.get?_inj hilen hnd (by rw [hi, hj, hbu])

theorem nodup_set {α : Type} {l : List α} {i : ℕ} {a : α} (h : l.Nodup)
    (ha : a ∉ l) : (l.set i a).Nodup := by
  induction l generalizing i with
  | nil => simp
  | cons c t ih =>
    cases i with
    | zero =>
      simp only [List.set]
      exact List.nodup_cons.mpr ⟨fun hc => ha (List.mem_cons_of_mem c hc),
        (List.nodup_cons.mp h).2⟩
    | succ i =>
      simp only [List.set]
      refine List.nodup_cons.mpr ⟨fun hc => ?_, ih (List.nodup_cons.mp h).2
        (fun hm => ha (List.mem_cons_of_mem c hm))⟩
      rcases List.mem_or_eq_of_mem_set hc with hm | he
      · exact (List.nodup_cons.mp h).1 hm
      · exact ha (he ▸ List.mem_cons_self c t)

theorem emod_succ_eval {N x : ℤ} (h0 : 0 ≤ x) (h1 : x < N) :
    (x + 1) % N = if x + 1 = N then 0 else x + 1 := by
  split
  · next h => rw [h, Int.emod_self]
  · next h => exact Int.emod_eq_of_lt (by omega) (by omega)

theorem emod_pred_eval {N x : ℤ} (hN : 0 < N) (h0 : 0 ≤ x) (h1 : x < N) :
    (x - 1) % N = if x = 0 then N - 1 else x - 1 := by
  split
  · next h =>
    subst h
    have hshift : ((0 : ℤ) - 1) % N = (0 - 1 + N * 1) % N :=
      (Int.add_mul_emod_self_left (0 - 1) N 1).symm
    rw [hshift]
    have : (0 : ℤ) - 1 + N * 1 = N - 1 := by ring
    rw [this]
    exact Int.emod_eq_of_lt (by omega) (by omega)
  · next h => exact Int.emod_eq_of_lt (by omega) (by omega)

theorem emod_succ_ne {N x : ℤ} (hN : 2 ≤ N) (h0 : 0 ≤ x) (h1 : x < N) :
    (x + 1) % N ≠ x := by
  rw [emod_succ_eval h0 h1]; split <;> omega

theorem emod_pred_ne {N x : ℤ} (hN : 2 ≤ N) (h0 : 0 ≤ x) (h1 : x < N) :
    (x - 1) % N ≠ x := by
  rw [emod_pred_eval (by omega) h0 h1]; split <;> omega

theorem emod_succ_eq_iff {N x y : ℤ} (hN : 2 ≤ N) (hx0 : 0 ≤ x)
    (hx1 : x < N) (hy0 : 0 ≤ y) (hy1 : y < N) :
    (x + 1) % N = y ↔ (y - 1) % N = x := by
  rw [emod_succ_eval hx0 hx1, emod_pred_eval (by omega) hy0 hy1]
  by_cases hxy : x + 1 = N <;> by_cases hy : y = 0 <;> simp [hxy, hy] <;> omega

/-! ## C9: Kawasaki with an empty occupancy list raises -/

/-- C9: invoking `update_state_kawasaki` with an empty `up` or `down` list
signals an error (the very first draw `rng.integers(0, 0)` raises, before
any cell or list is written), rather than completing the sweep as a no-op. -/
theorem kawasaki_empty_occupancy_raises (up down : List (ℤ × ℤ)) (s : Grid)
    (N : ℕ) (β : ℝ) (rs : RS) (k : ℕ) (hN : 1 ≤ N)
    (h : up = [] ∨ down = []) :
    update_state_kawasaki up down s N β rs k = none := by
  have hlen : up.length = 0 ∨ down.length = 0 := by
    rcases h with h | h
    · exact Or.inl (by simp [h])
    · exact Or.inr (by simp [h])
  have hstep : kawasakiStep N β rs (s, up, down, k) = none := by
    simp only [kawasakiStep]
    rw [if_pos hlen]
  have hpos : 0 < N * N := Nat.mul_pos hN hN
  obtain ⟨m, hm⟩ : ∃ m, N * N = m + 1 := ⟨N * N - 1, by omega⟩
  unfold update_state_kawasaki
  rw [hm]
  have : iterOpt (kawasakiStep N β rs) (m + 1) (s, up, down, k) =
      (kawasakiStep N β rs (s, up, down, k)).bind
        (iterOpt (kawasakiStep N β rs) m) := rfl
  rw [this, hstep]
  rfl

theorem kawasaki_empty_occupancy_raises_witness :
    (([] : List (ℤ × ℤ)) = [] ∨ ([((0 : ℤ), (0 : ℤ))]) = []) ∧
      update_state_kawasaki [] [((0 : ℤ), (0 : ℤ))] (fun _ _ => (1 : ℤ)) 1 0
        ⟨fun _ => 0, fun _ => 0⟩ 0 = none :=
  ⟨Or.inl rfl, kawasaki_empty_occupancy_raises _ _ _ _ _ _ _ (by decide)
    (Or.inl rfl)⟩

/-! ## C7: the neighbour query -/

/-- C7 counterexample: on an `N = 2` grid the four coordinates returned by
`pos_neighbourhood` are NOT distinct (wrap-around makes row+1 and row-1
coincide), refuting the claim that the neighbour query returns exactly 4
distinct coordinates for every grid size `N ≥ 1`. -/
theorem pos_neighbourhood_dup_N2 : ¬ (pos_neighbourhood 2 (0, 0)).Nodup := by
  decide

/-- C7 amended: for every in-range coordinate the neighbour query returns a
list of exactly 4 in-bounds coordinates, wrapped modulo `N`; they are
pairwise distinct whenever `N ≥ 3` (for `N ≤ 2` duplicates occur). -/
theorem pos_neighbourhood_props (N : ℕ) (pos : ℤ × ℤ) (hin : inR N pos) :
    (pos_neighbourhood N pos).length = 4 ∧
    (∀ q ∈ pos_neighbourhood N pos, inR N q) ∧
    (3 ≤ N → (pos_neighbourhood N pos).Nodup) := by
  obtain ⟨h1, h2, h3, h4⟩ := hin
  have hNpos : (0 : ℤ) < (N : ℤ) := by omega
  have hNne : (N : ℤ) ≠ 0 := by omega
  refine ⟨rfl, ?_, ?_⟩
  · intro q hq
    simp only [pos_neighbourhood, List.mem_cons, List.not_mem_nil, or_false]
      at hq
    rcases hq with h | h | h | h <;> subst h <;>
      exact ⟨by first
        | exact Int.emod_nonneg _ hNne
        | assumption, by first
        | exact Int.emod_lt_of_pos _ hNpos
        | assumption, by first
        | exact Int.emod_nonneg _ hNne
        | assumption, by first
        | exact Int.emod_lt_of_pos _ hNpos
        | assumption⟩
  · intro hN3
    have hN : (3 : ℤ) ≤ (N : ℤ) := by exact_mod_cast hN3
    have hrow : (pos.1 + 1) % (N : ℤ) ≠ (pos.1 - 1) % (N : ℤ) := by
      rw [emod_succ_eval h1 h2, emod_pred_eval hNpos h1 h2]
      split <;> split <;> omega
    have hcol : (pos.2 + 1) % (N : ℤ) ≠ (pos.2 - 1) % (N : ℤ) := by
      rw [emod_succ_eval h3 h4, emod_pred_eval hNpos h3 h4]
      split <;> split <;> omega
    have hs1 : (pos.1 + 1) % (N : ℤ) ≠ pos.1 := emod_succ_ne (by omega) h1 h2
    have hp1 : (pos.1 - 1) % (N : ℤ) ≠ pos.1 := emod_pred_ne (by omega) h1 h2
    have hs2 : (pos.2 + 1) % (N : ℤ) ≠ pos.2 := emod_succ_ne (by omega) h3 h4
    have hp2 : (pos.2 - 1) % (N : ℤ) ≠ pos.2 := emod_pred_ne (by omega) h3 h4
    simp only [pos_neighbourhood]
    refine List.nodup_cons.mpr ⟨?_, List.nodup_cons.mpr ⟨?_,
      List.nodup_cons.mpr ⟨?_, List.nodup_singleton _⟩⟩⟩
    · intro hmem
      simp only [List.mem_cons, List.mem_singleton, List.not_mem_nil,
        or_false] at hmem
      rcases hmem with h | h | h
      · exact hrow (congrArg Prod.fst h)
      · exact hs1 (congrArg Prod.fst h)
      · exact hs1 (congrArg Prod.fst h)
    · intro hmem
      simp only [List.mem_cons, List.mem_singleton, List.not_mem_nil,
        or_false] at hmem
      rcases hmem with h | h
      · exact hp1 (congrArg Prod.fst h)
      · exact hp1 (congrArg Prod.fst h)
    · intro hmem
      simp only [List.mem_singleton] at hmem
      exact hcol (congrArg Prod.snd hmem)

theorem pos_neighbourhood_props_witness :
    inR 3 ((2 : ℤ), (0 : ℤ)) ∧
      ((pos_neighbourhood 3 ((2 : ℤ), (0 : ℤ))).length = 4 ∧
       (∀ q ∈ pos_neighbourhood 3 ((2 : ℤ), (0 : ℤ)), inR 3 q) ∧
       (3 ≤ 3 → (pos_neighbourhood 3 ((2 : ℤ), (0 : ℤ))).Nodup)) :=
  ⟨by decide, pos_neighbourhood_props 3 _ (by decide)⟩

/-! ## Wolff invariants and claims C5, C10 -/

theorem update_lat_eq (N : ℕ) (P : ℝ) (rs : ℕ → ℝ) :
    ∀ (fuel : ℕ) (st : WSt) (pos : ℤ × ℤ) (k : ℕ),
      ((update N P rs fuel st pos k).1).lat = st.lat := by
  intro fuel
  induction fuel with
  | zero => intro st pos k; rfl
  | succ fuel ih =>
    intro st pos k
    rw [update_succ]
    have hfold : ∀ (l : List (ℤ × ℤ)) (ak : WSt × ℕ), ak.1.lat = st.lat →
        ((l.foldl (updateStep N P rs fuel pos) ak).1).lat = st.lat := by
      intro l
      induction l with
      | nil => intro ak h; exact h
      | cons q t iht =>
        intro ak h
        apply iht
        unfold updateStep
        split
        · split
          · rw [ih]; exact h
          · exact h
        · exact h
    exact hfold _ _ rfl

theorem pm_timesNeg {m : Grid} (h : ∀ a b : ℤ, m a b = 1 ∨ m a b = -1)
    (p : ℤ × ℤ) : ∀ a b : ℤ, timesNeg m p a b = 1 ∨ timesNeg m p a b = -1 := by
  intro a b
  unfold timesNeg setCell
  split
  · rcases h p.1 p.2 with hv | hv <;> rw [hv] <;> [right; left] <;> ring
  · exact h a b

theorem update_mark_pm (N : ℕ) (P : ℝ) (rs : ℕ → ℝ) :
    ∀ (fuel : ℕ) (st : WSt) (pos : ℤ × ℤ) (k : ℕ),
      (∀ a b : ℤ, st.mark a b = 1 ∨ st.mark a b = -1) →
      ∀ a b : ℤ, ((update N P rs fuel st pos k).1).mark a b = 1 ∨
        ((update N P rs fuel st pos k).1).mark a b = -1 := by
  intro fuel
  induction fuel with
  | zero => intro st pos k h; exact h
  | succ fuel ih =>
    intro st pos k h
    rw [update_succ]
    have hfold : ∀ (l : List (ℤ × ℤ)) (ak : WSt × ℕ),
        (∀ a b : ℤ, ak.1.mark a b = 1 ∨ ak.1.mark a b = -1) →
        ∀ a b : ℤ, ((l.foldl (updateStep N P rs fuel pos) ak).1).mark a b = 1 ∨
          ((l.foldl (updateStep N P rs fuel pos) ak).1).mark a b = -1 := by
      intro l
      induction l with
      | nil => intro ak hk; exact hk
      | cons q t iht =>
        intro ak hk
        apply iht
        unfold updateStep
        split
        · split
          · exact ih _ _ _ hk
          · exact hk
        · exact hk
    exact hfold _ _ (pm_timesNeg h pos)

theorem npAround_zero : npAround 0 = 0 := by
  unfold npAround
  norm_num

theorem npAround_nonneg {x : ℝ} (hx : 0 ≤ x) : 0 ≤ npAround x := by
  have h0 : 0 ≤ ⌊x⌋ := Int.floor_nonneg.mpr hx
  unfold npAround
  split
  · exact h0
  · split
    · omega
    · split <;> omega

theorem npAround_le_floor_succ (x : ℝ) : npAround x ≤ ⌊x⌋ + 1 := by
  unfold npAround
  split
  · omega
  · split
    · omega
    · split <;> omega

/-- For a valid uniform draw the Wolff seed computation lands in `[0, N)`. -/
theorem seedIndex_in_range {N : ℕ} {u : ℝ} (hN : 1 ≤ N) (h0 : 0 ≤ u)
    (h1 : u < 1) : 0 ≤ seedIndex N u ∧ seedIndex N u < (N : ℤ) := by
  have hNR : (1 : ℝ) ≤ (N : ℝ) := by exact_mod_cast hN
  have hx0 : 0 ≤ ((N : ℝ) - 1) * u := by nlinarith
  constructor
  · exact npAround_nonneg hx0
  · rcases Nat.lt_or_ge N 2 with h2 | h2
    · have hN1 : N = 1 := by omega
      subst hN1
      have : ((1 : ℕ) : ℝ) - 1 = 0 := by norm_num
      unfold seedIndex
      rw [this, zero_mul, npAround_zero]
      norm_num
    · have hNR2 : (2 : ℝ) ≤ (N : ℝ) := by exact_mod_cast h2
      have hxlt : ((N : ℝ) - 1) * u < (N : ℝ) - 1 := by nlinarith
      have hfl : ⌊((N : ℝ) - 1) * u⌋ < (N : ℤ) - 1 := by
        rw [Int.floor_lt]
        push_cast
        linarith
      have := npAround_le_floor_succ (((N : ℝ) - 1) * u)
      unfold seedIndex
      omega

/-- C5: `stepMC` returns the elementwise product of the input lattice with
the marker grid grown by `update`: marked cells (`-1`) are flipped,
unmarked cells (`+1`) are returned unchanged. -/
theorem stepMC_flips_marked_cluster (lattice : Grid) (N : ℕ) (kT : ℝ)
    (rs : ℕ → ℝ) (hN : 1 ≤ N) (h00 : 0 ≤ rs 0) (h01 : rs 0 < 1)
    (h10 : 0 ≤ rs 1) (h11 : rs 1 < 1) :
    ∃ r : WSt × Grid, stepMC lattice N kT rs = some r ∧
      r.2 = (fun a b => lattice a b * r.1.mark a b) ∧
      (∀ a b : ℤ, r.1.mark a b = 1 ∨ r.1.mark a b = -1) ∧
      (∀ a b : ℤ, r.1.mark a b = -1 → r.2 a b = -(lattice a b)) ∧
      (∀ a b : ℤ, r.1.mark a b = 1 → r.2 a b = lattice a b) := by
  obtain ⟨hs00, hs01⟩ := seedIndex_in_range hN h00 h01
  obtain ⟨hs10, hs11⟩ := seedIndex_in_range hN h10 h11
  have hidx0 : npIdx N (seedIndex N (rs 0)) = some (seedIndex N (rs 0)) := by
    unfold npIdx
    rw [if_pos ⟨hs00, hs01⟩]
  have hidx1 : npIdx N (seedIndex N (rs 1)) = some (seedIndex N (rs 1)) := by
    unfold npIdx
    rw [if_pos ⟨hs10, hs11⟩]
  set q : WSt := (update N (1 - Real.exp (-(2 : ℝ) * kT)) rs (N * N)
      ⟨lattice, fun _ _ => 1⟩ (seedIndex N (rs 0), seedIndex N (rs 1))
      2).1 with hq
  have hlat : q.lat = lattice := update_lat_eq _ _ _ _ _ _ _
  have hpm : ∀ a b : ℤ, q.mark a b = 1 ∨ q.mark a b = -1 :=
    update_mark_pm _ _ _ _ _ _ _ (fun a b => Or.inl rfl)
  have hrun : stepMC lattice N kT rs =
      some (q, fun a b => q.lat a b * q.mark a b) := by
    unfold stepMC
    rw [hidx0, hidx1]
  refine ⟨(q, fun a b => q.lat a b * q.mark a b), hrun, ?_, hpm, ?_, ?_⟩
  · funext a b
    rw [hlat]
  · intro a b hm
    simp only at hm ⊢
    rw [hlat, hm]
    ring
  · intro a b hm
    simp only at hm ⊢
    rw [hlat, hm]
    ring

theorem stepMC_flips_marked_cluster_witness :
    (1 ≤ 2 ∧ (0 : ℝ) ≤ 0 ∧ (0 : ℝ) < 1) ∧
      ∃ r : WSt × Grid,
        stepMC (fun _ _ => 1) 2 1 (fun _ => 0) = some r ∧
        r.2 = (fun a b => (fun _ _ => (1 : ℤ)) a b * r.1.mark a b) ∧
        (∀ a b : ℤ, r.1.mark a b = 1 ∨ r.1.mark a b = -1) ∧
        (∀ a b : ℤ, r.1.mark a b = -1 → r.2 a b = -((fun _ _ => (1 : ℤ)) a b)) ∧
        (∀ a b : ℤ, r.1.mark a b = 1 → r.2 a b = (fun _ _ => (1 : ℤ)) a b) :=
  ⟨⟨by decide, le_refl 0, zero_lt_one⟩,
    stepMC_flips_marked_cluster (fun _ _ => 1) 2 1 (fun _ => 0) (by decide)
      (le_refl 0) zero_lt_one (le_refl 0) zero_lt_one⟩

/-- C10: `stepMC` never writes to its input lattice: whenever the call
returns, the `lattice` component of the store is the very input array (the
cluster growth writes only into the fresh marker grid), and the flipped
configuration is only the newly built returned array. -/
theorem stepMC_input_lattice_unchanged (lattice : Grid) (N : ℕ) (kT : ℝ)
    (rs : ℕ → ℝ) :
    (stepMC lattice N kT rs).elim True (fun r => r.1.lat = lattice ∧
      r.2 = fun a b => lattice a b * r.1.mark a b) := by
  unfold stepMC
  cases h0 : npIdx N (seedIndex N (rs 0)) with
  | none => exact trivial
  | some i =>
    cases h1 : npIdx N (seedIndex N (rs 1)) with
    | none => exact trivial
    | some j =>
      have hlat : ((update N (1 - Real.exp (-(2 : ℝ) * kT)) rs (N * N)
          ⟨lattice, fun _ _ => 1⟩ (i, j) 2).1).lat = lattice :=
        update_lat_eq _ _ _ _ _ _ _
      exact ⟨hlat, by funext a b; rw [hlat]⟩

/-! ## C6: the Wolff seed coordinate distribution -/

theorem floor_le_npAround (x : ℝ) : ⌊x⌋ ≤ npAround x := by
  unfold npAround
  split
  · omega
  · split
    · omega
    · split <;> omega

theorem npAround_eq_zero_of {x : ℝ} (h0 : 0 ≤ x) (h : x ≤ 1 / 2) :
    npAround x = 0 := by
  have hf : ⌊x⌋ = 0 := Int.floor_eq_zero_iff.mpr ⟨h0, by linarith⟩
  have hfr : Int.fract x = x := by
    unfold Int.fract
    rw [hf]
    push_cast
    ring
  unfold npAround
  rw [hfr, hf]
  rcases lt_or_eq_of_le h with h2 | h2
  · rw [if_pos h2]
  · rw [if_neg (by linarith), if_neg (by linarith), if_pos even_zero]

theorem npAround_ge_one_of {x : ℝ} (h : 1 / 2 < x) : 1 ≤ npAround x := by
  by_cases h1 : x < 1
  · have hf : ⌊x⌋ = 0 := Int.floor_eq_zero_iff.mpr ⟨by linarith, h1⟩
    have hfr : Int.fract x = x := by
      unfold Int.fract
      rw [hf]
      push_cast
      ring
    unfold npAround
    rw [hfr, hf, if_neg (by linarith), if_pos h]
    omega
  · have hf : 1 ≤ ⌊x⌋ := Int.le_floor.mpr (by push_cast; linarith)
    have := floor_le_npAround x
    omega

theorem npAround_eq_one_of {x : ℝ} (ha : 1 / 2 < x) (hb : x < 3 / 2) :
    npAround x = 1 := by
  by_cases h1 : x < 1
  · have hf : ⌊x⌋ = 0 := Int.floor_eq_zero_iff.mpr ⟨by linarith, h1⟩
    have hfr : Int.fract x = x := by
      unfold Int.fract
      rw [hf]
      push_cast
      ring
    unfold npAround
    rw [hfr, hf, if_neg (by linarith), if_pos ha]
    omega
  · have hf : ⌊x⌋ = 1 := by
      rw [Int.floor_eq_iff]
      push_cast
      constructor <;> linarith
    have hfr : Int.fract x = x - 1 := by
      unfold Int.fract
      rw [hf]
      push_cast
      ring
    unfold npAround
    rw [hfr, hf, if_pos (by linarith)]

theorem npAround_ge_two_of {x : ℝ} (h : 3 / 2 ≤ x) : 2 ≤ npAround x := by
  by_cases h2 : x < 2
  · have hf : ⌊x⌋ = 1 := by
      rw [Int.floor_eq_iff]
      push_cast
      constructor <;> linarith
    have hfr : Int.fract x = x - 1 := by
      unfold Int.fract
      rw [hf]
      push_cast
      ring
    unfold npAround
    rw [hfr, hf]
    rcases lt_or_eq_of_le h with h3 | h3
    · rw [if_neg (by linarith), if_pos (by linarith)]
      omega
    · rw [if_neg (by linarith), if_neg (by linarith),
        if_neg (by decide : ¬ Even (1 : ℤ))]
      omega
  · have hf : 2 ≤ ⌊x⌋ := Int.le_floor.mpr (by push_cast; linarith)
    have := floor_le_npAround x
    omega

/-- C6 (code bug): the `stepMC` seed coordinate obtained from
`np.around((grid_size - 1) * rng.random())` is NOT uniform: on a grid of
size `N = 3` the set of uniform draws producing row index `0` has measure
`1/4` while the set producing row index `1` has measure `1/2`, so the two
indices are not selected with equal probability. -/
theorem stepMC_seed_not_uniform :
    MeasureTheory.volume {u : ℝ | (0 ≤ u ∧ u < 1) ∧ seedIndex 3 u = 0}
        = ENNReal.ofReal (1 / 4) ∧
    MeasureTheory.volume {u : ℝ | (0 ≤ u ∧ u < 1) ∧ seedIndex 3 u = 1}
        = ENNReal.ofReal (1 / 2) ∧
    MeasureTheory.volume {u : ℝ | (0 ≤ u ∧ u < 1) ∧ seedIndex 3 u = 0}
      ≠ MeasureTheory.volume {u : ℝ | (0 ≤ u ∧ u < 1) ∧ seedIndex 3 u = 1} := by
  have hc : ((3 : ℕ) : ℝ) - 1 = 2 := by norm_num
  have hset0 : {u : ℝ | (0 ≤ u ∧ u < 1) ∧ seedIndex 3 u = 0}
      = Set.Icc (0 : ℝ) (1 / 4) := by
    ext u
    simp only [Set.mem_setOf_eq, Set.mem_Icc]
    unfold seedIndex
    rw [hc]
    constructor
    · rintro ⟨⟨h0, _⟩, hz⟩
      refine ⟨h0, ?_⟩
      by_contra hgt
      have : 1 ≤ npAround (2 * u) := npAround_ge_one_of (by linarith)
      omega
    · rintro ⟨h0, h4⟩
      exact ⟨⟨h0, by linarith⟩,
        npAround_eq_zero_of (by linarith) (by linarith)⟩
  have hset1 : {u : ℝ | (0 ≤ u ∧ u < 1) ∧ seedIndex 3 u = 1}
      = Set.Ioo (1 / 4 : ℝ) (3 / 4) := by
    ext u
    simp only [Set.mem_setOf_eq, Set.mem_Ioo]
    unfold seedIndex
    rw [hc]
    constructor
    · rintro ⟨⟨h0, _⟩, hz⟩
      constructor
      · by_contra hle
        have : npAround (2 * u) = 0 :=
          npAround_eq_zero_of (by linarith) (by linarith)
        omega
      · by_contra hge
        have : 2 ≤ npAround (2 * u) := npAround_ge_two_of (by linarith)
        omega
    · rintro ⟨ha, hb⟩
      exact ⟨⟨by linarith, by linarith⟩,
        npAround_eq_one_of (by linarith) (by linarith)⟩
  rw [hset0, hset1, Real.volume_Icc, Real.volume_Ioo]
  refine ⟨by norm_num, by norm_num, fun h => ?_⟩
  rw [show (1 / 4 : ℝ) - 0 = 1 / 4 by norm_num,
    show (3 / 4 : ℝ) - 1 / 4 = 1 / 2 by norm_num,
    ENNReal.ofReal_eq_ofReal_iff (by norm_num) (by norm_num)] at h
  norm_num at h

/-! ## Closure helpers and the Ising engine claims -/

theorem PMGrid.at2 {N : ℕ} {s : Grid} (h : PMGrid N s) {i j : ℤ}
    (h1 : 0 ≤ i) (h2 : i < (N : ℤ)) (h3 : 0 ≤ j) (h4 : j < (N : ℤ)) :
    s i j = 1 ∨ s i j = -1 :=
  h i (Finset.mem_Ico.mpr ⟨h1, h2⟩) j (Finset.mem_Ico.mpr ⟨h3, h4⟩)

theorem pm_decomp {z : ℤ} (h : z = 1 ∨ z = -1) :
    ∃ m : ℤ, z = 2 * m + 1 ∧ -1 ≤ m ∧ m ≤ 0 := by
  rcases h with h | h
  · exact ⟨0, by omega⟩
  · exact ⟨-1, by omega⟩

theorem pm_setCell {N : ℕ} {s : Grid} (hpm : PMGrid N s) (p : ℤ × ℤ) (v : ℤ)
    (hv : inR N p → v = 1 ∨ v = -1) : PMGrid N (setCell s p v) := by
  intro i hi j hj
  unfold setCell
  split
  · next h =>
    obtain ⟨hi1, hj1⟩ := h
    obtain ⟨ha, hb⟩ := Finset.mem_Ico.mp hi
    obtain ⟨hc, hd⟩ := Finset.mem_Ico.mp hj
    exact hv ⟨hi1 ▸ ha, hi1 ▸ hb, hj1 ▸ hc, hj1 ▸ hd⟩
  · exact hpm i hi j hj

theorem pm_flipCell {N : ℕ} {s : Grid} (hpm : PMGrid N s) (p : ℤ × ℤ) :
    PMGrid N (flipCell s p) := by
  refine pm_setCell hpm p _ (fun hp => ?_)
  rcases hpm.at hp with h | h <;> rw [h]
  · right; ring
  · left; ring

/-- Under the all-spins-`±1` precondition the Ising local energy change at
an in-range site takes one of the five values `{-8, -4, 0, 4, 8}`. -/
theorem ising_dE_mem (N : ℕ) (s : Grid) (pos : ℤ × ℤ) (hpm : PMGrid N s)
    (hpos : inR N pos) :
    ising_dE N s pos = -8 ∨ ising_dE N s pos = -4 ∨ ising_dE N s pos = 0 ∨
      ising_dE N s pos = 4 ∨ ising_dE N s pos = 8 := by
  obtain ⟨h1, h2, h3, h4⟩ := hpos
  have hN0 : (0 : ℤ) < (N : ℤ) := by omega
  have hNne : (N : ℤ) ≠ 0 := by omega
  obtain ⟨m1, hm1, hm1a, hm1b⟩ := pm_decomp (hpm.at2
    (Int.emod_nonneg _ hNne) (Int.emod_lt_of_pos _ hN0) h3 h4 :
    s ((pos.1 + 1) % (N : ℤ)) pos.2 = 1 ∨ _ = -1)
  obtain ⟨m2, hm2, hm2a, hm2b⟩ := pm_decomp (hpm.at2
    (Int.emod_nonneg _ hNne) (Int.emod_lt_of_pos _ hN0) h3 h4 :
    s ((pos.1 - 1) % (N : ℤ)) pos.2 = 1 ∨ _ = -1)
  obtain ⟨m3, hm3, hm3a, hm3b⟩ := pm_decomp (hpm.at2 h1 h2
    (Int.emod_nonneg _ hNne) (Int.emod_lt_of_pos _ hN0) :
    s pos.1 ((pos.2 + 1) % (N : ℤ)) = 1 ∨ _ = -1)
  obtain ⟨m4, hm4, hm4a, hm4b⟩ := pm_decomp (hpm.at2 h1 h2
    (Int.emod_nonneg _ hNne) (Int.emod_lt_of_pos _ hN0) :
    s pos.1 ((pos.2 - 1) % (N : ℤ)) = 1 ∨ _ = -1)
  rcases hpm.at2 h1 h2 h3 h4 with hc | hc <;>
    · unfold ising_dE get_neighborhood
      rw [hc, hm1, hm2, hm3, hm4]
      omega

/-- Closure of one Ising attempt body: every returned grid is `±1`-valued
on the in-range cells whenever the input grid is. -/
theorem isingBody_pm {N : ℕ} {β : ℝ} {rs : RS} {s : Grid} {pos : ℤ × ℤ}
    {k : ℕ} (hpm : PMGrid N s) :
    ∀ y, isingBody N β rs s pos k = some y → PMGrid N y.1 := by
  intro y hy
  unfold isingBody at hy
  split at hy
  · injection hy with h
    subst h
    exact pm_flipCell hpm pos
  · unfold tryAccept at hy
    split at hy
    · exact absurd hy (by simp)
    · split at hy
      · injection hy with h
        subst h
        exact pm_flipCell hpm pos
      · injection hy with h
        subst h
        exact hpm

theorem isingStepSpec_pm {N : ℕ} {β : ℝ} {rs : RS} {x : Grid × ℕ}
    (hpm : PMGrid N x.1) : PMGrid N (isingStepSpec N β rs x).1 := by
  unfold isingStepSpec
  split
  · exact pm_flipCell hpm _
  · split
    · exact pm_flipCell hpm _
    · exact hpm

/-- One Ising attempt of the source agrees exactly with the Metropolis rule
of the spec, for `±1` grids and an in-range drawn site: same branch taken,
same draws consumed, and the table entry accessed equals `exp(-dE·β)`. -/
theorem isingStep_eq_spec (N : ℕ) (β : ℝ) (rs : RS) (s : Grid) (k : ℕ)
    (hpm : PMGrid N s)
    (hpos : inR N ((rs.ints k : ℤ), (rs.ints (k + 1) : ℤ))) :
    isingStep N β rs (s, k) = some (isingStepSpec N β rs (s, k)) := by
  unfold isingStep isingStepSpec isingBody
  simp only
  rcases ising_dE_mem N s ((rs.ints k : ℤ), (rs.ints (k + 1) : ℤ)) hpm hpos
    with h | h | h | h | h <;> rw [h]
  · norm_num
  · norm_num
  · norm_num
  · rw [if_neg (by norm_num), if_neg (by norm_num)]
    have hidx : pyInt (((4 : ℤ) : ℚ) / 4 - 1) = 0 := by
      unfold pyInt
      norm_num
    rw [hidx]
    have htab : npGet (isingExponent β) 0 =
        some (Real.exp (-(((0 : ℕ) : ℝ) + 1) * 4 * β)) := rfl
    rw [htab, tryAccept_some]
    have hexp : Real.exp (-(((0 : ℕ) : ℝ) + 1) * 4 * β) =
        Real.exp (-((4 : ℤ) : ℝ) * β) := by
      push_cast
      ring_nf
    rw [hexp, apply_ite some]
  · rw [if_neg (by norm_num), if_neg (by norm_num)]
    have hidx : pyInt (((8 : ℤ) : ℚ) / 4 - 1) = 1 := by
      unfold pyInt
      norm_num
    rw [hidx]
    have htab : npGet (isingExponent β) 1 =
        some (Real.exp (-(((1 : ℕ) : ℝ) + 1) * 4 * β)) := rfl
    rw [htab, tryAccept_some]
    have hexp : Real.exp (-(((1 : ℕ) : ℝ) + 1) * 4 * β) =
        Real.exp (-((8 : ℤ) : ℝ) * β) := by
      push_cast
      ring_nf
    rw [hexp, apply_ite some]

/-- Iterated Ising attempts agree with iterated Metropolis attempts and
stay `±1`-valued, for in-range draws. -/
theorem ising_iter_eq_spec (N : ℕ) (β : ℝ) (rs : RS)
    (hints : ∀ j : ℕ, rs.ints j < N) :
    ∀ (n : ℕ) (s : Grid) (k : ℕ), PMGrid N s →
      iterOpt (isingStep N β rs) n (s, k) =
        some (iterT (isingStepSpec N β rs) n (s, k)) ∧
      PMGrid N (iterT (isingStepSpec N β rs) n (s, k)).1 := by
  intro n
  induction n with
  | zero => exact fun s k hpm => ⟨rfl, hpm⟩
  | succ n ih =>
    intro s k hpm
    have hpos : inR N ((rs.ints k : ℤ), (rs.ints (k + 1) : ℤ)) := by
      refine ⟨Int.natCast_nonneg _, ?_, Int.natCast_nonneg _, ?_⟩
      · show ((rs.ints k : ℤ)) < (N : ℤ)
        exact_mod_cast hints k
      · show ((rs.ints (k + 1) : ℤ)) < (N : ℤ)
        exact_mod_cast hints (k + 1)
    have hstep := isingStep_eq_spec N β rs s k hpm hpos
    have hpm2 : PMGrid N (isingStepSpec N β rs (s, k)).1 :=
      isingStepSpec_pm hpm
    have hiter : iterOpt (isingStep N β rs) (n + 1) (s, k) =
        iterOpt (isingStep N β rs) n (isingStepSpec N β rs (s, k)) := by
      show (isingStep N β rs (s, k)).bind (iterOpt (isingStep N β rs) n) = _
      rw [hstep]
      rfl
    have hiterT : iterT (isingStepSpec N β rs) (n + 1) (s, k) =
        iterT (isingStepSpec N β rs) n (isingStepSpec N β rs (s, k)) := rfl
    obtain ⟨ihe, ihp⟩ := ih (isingStepSpec N β rs (s, k)).1
      (isingStepSpec N β rs (s, k)).2 hpm2
    rw [hiter, hiterT]
    constructor
    · rw [← ihe]
    · rw [show ((isingStepSpec N β rs (s, k)).1,
        (isingStepSpec N β rs (s, k)).2) = isingStepSpec N β rs (s, k) from
        rfl] at ihe ihp
      exact ihp

/-- C3: for a `±1` lattice and in-range site draws, the Ising sweep of the
source performs exactly `N²` elementary attempts, each implementing the
Metropolis acceptance rule precisely: the sweep returns (no table
exception) and equals the `N²`-fold iteration of the spec's Metropolis
attempt, with identical sites, flips and random-draw consumption. -/
theorem ising_sweep_is_metropolis (s : Grid) (N : ℕ) (β : ℝ) (rs : RS)
    (k : ℕ) (hpm : PMGrid N s) (hints : ∀ j : ℕ, rs.ints j < N) :
    update_state_ising s N β rs k = some (isingSweepSpec s N β rs k) :=
  (ising_iter_eq_spec N β rs hints (N * N) s k hpm).1

theorem ising_sweep_is_metropolis_witness :
    PMGrid 1 (fun _ _ => 1) ∧ (∀ j : ℕ, (fun _ : ℕ => 0) j < 1) ∧
      update_state_ising (fun _ _ => 1) 1 1 ⟨fun _ => 0, fun _ => 0⟩ 0 =
        some (isingSweepSpec (fun _ _ => 1) 1 1 ⟨fun _ => 0, fun _ => 0⟩ 0) :=
  ⟨by decide, fun _ => Nat.one_pos,
    ising_sweep_is_metropolis (fun _ _ => 1) 1 1 ⟨fun _ => 0, fun _ => 0⟩ 0
      (by decide) (fun _ => Nat.one_pos)⟩

/-! ## C4: the Kawasaki energy difference and acceptance table -/

/-- Core bound: under the all-spins-`±1` precondition, the Kawasaki energy
difference for an up site `u` and a down site `v` is a multiple of 4 and
at most 16. -/
theorem kawasakiDelta_dvd_le (N : ℕ) (s : Grid) (u v : ℤ × ℤ)
    (hpm : PMGrid N s) (hu : inR N u) (hv : inR N v)
    (hsu : s u.1 u.2 = 1) (hsv : s v.1 v.2 = -1) :
    4 ∣ kawasakiDelta N s u v ∧ kawasakiDelta N s u v ≤ 16 := by
  obtain ⟨hu1, hu2, hu3, hu4⟩ := hu
  obtain ⟨hv1, hv2, hv3, hv4⟩ := hv
  have huv : ¬(u.1 = v.1 ∧ u.2 = v.2) := by
    rintro ⟨h1, h2⟩
    rw [h1, h2, hsv] at hsu
    exact absurd hsu (by decide)
  have hvu : ¬(v.1 = u.1 ∧ v.2 = u.2) := fun h => huv ⟨h.1.symm, h.2.symm⟩
  have hN2 : (2 : ℤ) ≤ (N : ℤ) := by
    by_contra hlt
    push_neg at hlt
    exact huv (by omega)
  have hN0 : (0 : ℤ) < (N : ℤ) := by omega
  have hNne : (N : ℤ) ≠ 0 := by omega
  have hval : ∀ i j : ℤ, flipCell (flipCell s u) v i j =
      if i = v.1 ∧ j = v.2 then 1
      else if i = u.1 ∧ j = u.2 then -1 else s i j := by
    intro i j
    unfold flipCell setCell
    by_cases h1 : i = v.1 ∧ j = v.2
    · rw [if_pos h1, if_pos h1, if_neg hvu, hsv]
      norm_num
    · rw [if_neg h1, if_neg h1, hsu]
  have hs2u : flipCell (flipCell s u) v u.1 u.2 = -1 := by
    rw [hval, if_neg huv, if_pos ⟨rfl, rfl⟩]
  have hs2v : flipCell (flipCell s u) v v.1 v.2 = 1 := by
    rw [hval, if_pos ⟨rfl, rfl⟩]
  have hqu1 : (u.1 + 1) % (N : ℤ) ≠ u.1 := emod_succ_ne hN2 hu1 hu2
  have hqu2 : (u.1 - 1) % (N : ℤ) ≠ u.1 := emod_pred_ne hN2 hu1 hu2
  have hqu3 : (u.2 + 1) % (N : ℤ) ≠ u.2 := emod_succ_ne hN2 hu3 hu4
  have hqu4 : (u.2 - 1) % (N : ℤ) ≠ u.2 := emod_pred_ne hN2 hu3 hu4
  have hqv1 : (v.1 + 1) % (N : ℤ) ≠ v.1 := emod_succ_ne hN2 hv1 hv2
  have hqv2 : (v.1 - 1) % (N : ℤ) ≠ v.1 := emod_pred_ne hN2 hv1 hv2
  have hqv3 : (v.2 + 1) % (N : ℤ) ≠ v.2 := emod_succ_ne hN2 hv3 hv4
  have hqv4 : (v.2 - 1) % (N : ℤ) ≠ v.2 := emod_pred_ne hN2 hv3 hv4
  have hpair1 : ((u.1 + 1) % (N : ℤ) = v.1 ∧ u.2 = v.2) ↔
      ((v.1 - 1) % (N : ℤ) = u.1 ∧ v.2 = u.2) :=
    and_congr (emod_succ_eq_iff hN2 hu1 hu2 hv1 hv2) eq_comm
  have hpair2 : ((u.1 - 1) % (N : ℤ) = v.1 ∧ u.2 = v.2) ↔
      ((v.1 + 1) % (N : ℤ) = u.1 ∧ v.2 = u.2) :=
    and_congr (emod_succ_eq_iff hN2 hv1 hv2 hu1 hu2).symm eq_comm
  have hpair3 : (u.1 = v.1 ∧ (u.2 + 1) % (N : ℤ) = v.2) ↔
      (v.1 = u.1 ∧ (v.2 - 1) % (N : ℤ) = u.2) :=
    and_congr eq_comm (emod_succ_eq_iff hN2 hu3 hu4 hv3 hv4)
  have hpair4 : (u.1 = v.1 ∧ (u.2 - 1) % (N : ℤ) = v.2) ↔
      (v.1 = u.1 ∧ (v.2 + 1) % (N : ℤ) = u.2) :=
    and_congr eq_comm (emod_succ_eq_iff hN2 hv3 hv4 hu3 hu4).symm
  obtain ⟨a1, ha1, ha1l, ha1r⟩ := pm_decomp (hpm.at2
    (Int.emod_nonneg _ hNne) (Int.emod_lt_of_pos _ hN0) hu3 hu4 :
    s ((u.1 + 1) % (N : ℤ)) u.2 = 1 ∨ _ = -1)
  obtain ⟨a2, ha2, ha2l, ha2r⟩ := pm_decomp (hpm.at2
    (Int.emod_nonneg _ hNne) (Int.emod_lt_of_pos _ hN0) hu3 hu4 :
    s ((u.1 - 1) % (N : ℤ)) u.2 = 1 ∨ _ = -1)
  obtain ⟨a3, ha3, ha3l, ha3r⟩ := pm_decomp (hpm.at2 hu1 hu2
    (Int.emod_nonneg _ hNne) (Int.emod_lt_of_pos _ hN0) :
    s u.1 ((u.2 + 1) % (N : ℤ)) = 1 ∨ _ = -1)
  obtain ⟨a4, ha4, ha4l, ha4r⟩ := pm_decomp (hpm.at2 hu1 hu2
    (Int.emod_nonneg _ hNne) (Int.emod_lt_of_pos _ hN0) :
    s u.1 ((u.2 - 1) % (N : ℤ)) = 1 ∨ _ = -1)
  obtain ⟨b1, hb1, hb1l, hb1r⟩ := pm_decomp (hpm.at2
    (Int.emod_nonneg _ hNne) (Int.emod_lt_of_pos _ hN0) hv3 hv4 :
    s ((v.1 + 1) % (N : ℤ)) v.2 = 1 ∨ _ = -1)
  obtain ⟨b2, hb2, hb2l, hb2r⟩ := pm_decomp (hpm.at2
    (Int.emod_nonneg _ hNne) (Int.emod_lt_of_pos _ hN0) hv3 hv4 :
    s ((v.1 - 1) % (N : ℤ)) v.2 = 1 ∨ _ = -1)
  obtain ⟨b3, hb3, hb3l, hb3r⟩ := pm_decomp (hpm.at2 hv1 hv2
    (Int.emod_nonneg _ hNne) (Int.emod_lt_of_pos _ hN0) :
    s v.1 ((v.2 + 1) % (N : ℤ)) = 1 ∨ _ = -1)
  obtain ⟨b4, hb4, hb4l, hb4r⟩ := pm_decomp (hpm.at2 hv1 hv2
    (Int.emod_nonneg _ hNne) (Int.emod_lt_of_pos _ hN0) :
    s v.1 ((v.2 - 1) % (N : ℤ)) = 1 ∨ _ = -1)
  have pf1 : (flipCell (flipCell s u) v ((u.1 + 1) % (N : ℤ)) u.2 =
        s ((u.1 + 1) % (N : ℤ)) u.2 + 2 ∧
      flipCell (flipCell s u) v ((v.1 - 1) % (N : ℤ)) v.2 =
        s ((v.1 - 1) % (N : ℤ)) v.2 - 2 ∧
      s ((u.1 + 1) % (N : ℤ)) u.2 = -1 ∧
      s ((v.1 - 1) % (N : ℤ)) v.2 = 1) ∨
      (flipCell (flipCell s u) v ((u.1 + 1) % (N : ℤ)) u.2 =
        s ((u.1 + 1) % (N : ℤ)) u.2 ∧
      flipCell (flipCell s u) v ((v.1 - 1) % (N : ℤ)) v.2 =
        s ((v.1 - 1) % (N : ℤ)) v.2) := by
    by_cases hc : (u.1 + 1) % (N : ℤ) = v.1 ∧ u.2 = v.2
    · obtain ⟨hd1, hd2⟩ := hpair1.mp hc
      have e1 : s ((u.1 + 1) % (N : ℤ)) u.2 = -1 := by
        rw [hc.1, hc.2, hsv]
      have e2 : s ((v.1 - 1) % (N : ℤ)) v.2 = 1 := by
        rw [hd1, hd2, hsu]
      refine Or.inl ⟨?_, ?_, e1, e2⟩
      · rw [hval, if_pos hc, e1]
        norm_num
      · rw [hval, if_neg (fun hh => hqv2 hh.1), if_pos ⟨hd1, hd2⟩, e2]
        norm_num
    · refine Or.inr ⟨?_, ?_⟩
      · rw [hval, if_neg hc, if_neg (fun hh => hqu1 hh.1)]
      · rw [hval, if_neg (fun hh => hqv2 hh.1),
          if_neg (fun hh => hc (hpair1.mpr hh))]
  have pf2 : (flipCell (flipCell s u) v ((u.1 - 1) % (N : ℤ)) u.2 =
        s ((u.1 - 1) % (N : ℤ)) u.2 + 2 ∧
      flipCell (flipCell s u) v ((v.1 + 1) % (N : ℤ)) v.2 =
        s ((v.1 + 1) % (N : ℤ)) v.2 - 2 ∧
      s ((u.1 - 1) % (N : ℤ)) u.2 = -1 ∧
      s ((v.1 + 1) % (N : ℤ)) v.2 = 1) ∨
      (flipCell (flipCell s u) v ((u.1 - 1) % (N : ℤ)) u.2 =
        s ((u.1 - 1) % (N : ℤ)) u.2 ∧
      flipCell (flipCell s u) v ((v.1 + 1) % (N : ℤ)) v.2 =
        s ((v.1 + 1) % (N : ℤ)) v.2) := by
    by_cases hc : (u.1 - 1) % (N : ℤ) = v.1 ∧ u.2 = v.2
    · obtain ⟨hd1, hd2⟩ := hpair2.mp hc
      have e1 : s ((u.1 - 1) % (N : ℤ)) u.2 = -1 := by
        rw [hc.1, hc.2, hsv]
      have e2 : s ((v.1 + 1) % (N : ℤ)) v.2 = 1 := by
        rw [hd1, hd2, hsu]
      refine Or.inl ⟨?_, ?_, e1, e2⟩
      · rw [hval, if_pos hc, e1]
        norm_num
      · rw [hval, if_neg (fun hh => hqv1 hh.1), if_pos ⟨hd1, hd2⟩, e2]
        norm_num
    · refine Or.inr ⟨?_, ?_⟩
      · rw [hval, if_neg hc, if_neg (fun hh => hqu2 hh.1)]
      · rw [hval, if_neg (fun hh => hqv1 hh.1),
          if_neg (fun hh => hc (hpair2.mpr hh))]
  have pf3 : (flipCell (flipCell s u) v u.1 ((u.2 + 1) % (N : ℤ)) =
        s u.1 ((u.2 + 1) % (N : ℤ)) + 2 ∧
      flipCell (flipCell s u) v v.1 ((v.2 - 1) % (N : ℤ)) =
        s v.1 ((v.2 - 1) % (N : ℤ)) - 2 ∧
      s u.1 ((u.2 + 1) % (N : ℤ)) = -1 ∧
      s v.1 ((v.2 - 1) % (N : ℤ)) = 1) ∨
      (flipCell (flipCell s u) v u.1 ((u.2 + 1) % (N : ℤ)) =
        s u.1 ((u.2 + 1) % (N : ℤ)) ∧
      flipCell (flipCell s u) v v.1 ((v.2 - 1) % (N : ℤ)) =
        s v.1 ((v.2 - 1) % (N : ℤ))) := by
    by_cases hc : u.1 = v.1 ∧ (u.2 + 1) % (N : ℤ) = v.2
    · obtain ⟨hd1, hd2⟩ := hpair3.mp hc
      have e1 : s u.1 ((u.2 + 1) % (N : ℤ)) = -1 := by
        rw [hc.1, hc.2, hsv]
      have e2 : s v.1 ((v.2 - 1) % (N : ℤ)) = 1 := by
        rw [hd1, hd2, hsu]
      refine Or.inl ⟨?_, ?_, e1, e2⟩
      · rw [hval, if_pos hc, e1]
        norm_num
      · rw [hval, if_neg (fun hh => hqv4 hh.2), if_pos ⟨hd1, hd2⟩, e2]
        norm_num
    · refine Or.inr ⟨?_, ?_⟩
      · rw [hval, if_neg hc, if_neg (fun hh => hqu3 hh.2)]
      · rw [hval, if_neg (fun hh => hqv4 hh.2),
          if_neg (fun hh => hc (hpair3.mpr hh))]
  have pf4 : (flipCell (flipCell s u) v u.1 ((u.2 - 1) % (N : ℤ)) =
        s u.1 ((u.2 - 1) % (N : ℤ)) + 2 ∧
      flipCell (flipCell s u) v v.1 ((v.2 + 1) % (N : ℤ)) =
        s v.1 ((v.2 + 1) % (N : ℤ)) - 2 ∧
      s u.1 ((u.2 - 1) % (N : ℤ)) = -1 ∧
      s v.1 ((v.2 + 1) % (N : ℤ)) = 1) ∨
      (flipCell (flipCell s u) v u.1 ((u.2 - 1) % (N : ℤ)) =
        s u.1 ((u.2 - 1) % (N : ℤ)) ∧
      flipCell (flipCell s u) v v.1 ((v.2 + 1) % (N : ℤ)) =
        s v.1 ((v.2 + 1) % (N : ℤ))) := by
    by_cases hc : u.1 = v.1 ∧ (u.2 - 1) % (N : ℤ) = v.2
    · obtain ⟨hd1, hd2⟩ := hpair4.mp hc
      have e1 : s u.1 ((u.2 - 1) % (N : ℤ)) = -1 := by
        rw [hc.1, hc.2, hsv]
      have e2 : s v.1 ((v.2 + 1) % (N : ℤ)) = 1 := by
        rw [hd1, hd2, hsu]
      refine Or.inl ⟨?_, ?_, e1, e2⟩
      · rw [hval, if_pos hc, e1]
        norm_num
      · rw [hval, if_neg (fun hh => hqv3 hh.2), if_pos ⟨hd1, hd2⟩, e2]
        norm_num
    · refine Or.inr ⟨?_, ?_⟩
      · rw [hval, if_neg hc, if_neg (fun hh => hqu4 hh.2)]
      · rw [hval, if_neg (fun hh => hqv3 hh.2),
          if_neg (fun hh => hc (hpair4.mpr hh))]
  unfold kawasakiDelta kawasakiE get_neighborhood
  rw [hsu, hsv, hs2u, hs2v]
  rcases pf1 with ⟨e11, e12, e13, e14⟩ | ⟨e11, e12⟩ <;>
    rcases pf2 with ⟨e21, e22, e23, e24⟩ | ⟨e21, e22⟩ <;>
      rcases pf3 with ⟨e31, e32, e33, e34⟩ | ⟨e31, e32⟩ <;>
        rcases pf4 with ⟨e41, e42, e43, e44⟩ | ⟨e41, e42⟩ <;>
          constructor <;> omega

theorem kawasakiExponent_get (β : ℝ) {d : ℤ} (h1 : 1 ≤ d) (h2 : d ≤ 16) :
    npGet (kawasakiExponent β) (d - 1) = some (Real.exp (-(d : ℝ) * β)) := by
  unfold npGet kawasakiExponent
  rw [if_pos (by omega : (0 : ℤ) ≤ d - 1)]
  have hlt : (d - 1).toNat < 16 := by omega
  rw [List.get?_map, List.get?_range hlt]
  have hcast : (((d - 1).toNat : ℕ) : ℝ) = (d : ℝ) - 1 := by
    have h3 : (((d - 1).toNat : ℕ) : ℤ) = d - 1 := Int.toNat_of_nonneg (by omega)
    have h4 : ((((d - 1).toNat : ℕ) : ℤ) : ℝ) = ((d - 1 : ℤ) : ℝ) := by
      rw [h3]
    push_cast at h4
    exact h4
  simp only [Option.map_some']
  congr 1
  rw [hcast]
  ring_nf

/-- C4: whenever the Kawasaki update computes a positive energy difference
`Δ = dEu - dEv` on an all-`±1` lattice, `Δ ∈ {4, 8, 12, 16}`; in
particular the access `exponent[int(Δ - 1)]` into the 16-entry table is in
bounds (also at the boundary `Δ = 16`) and yields exactly `exp(-Δ·β)`. -/
theorem kawasaki_delta_bounded_table_ok (N : ℕ) (s : Grid) (u v : ℤ × ℤ)
    (β : ℝ) (hpm : PMGrid N s) (hu : inR N u) (hv : inR N v)
    (hsu : s u.1 u.2 = 1) (hsv : s v.1 v.2 = -1)
    (hpos : 0 < kawasakiDelta N s u v) :
    (kawasakiDelta N s u v = 4 ∨ kawasakiDelta N s u v = 8 ∨
     kawasakiDelta N s u v = 12 ∨ kawasakiDelta N s u v = 16) ∧
    npGet (kawasakiExponent β) (kawasakiDelta N s u v - 1) =
      some (Real.exp (-(kawasakiDelta N s u v : ℝ) * β)) := by
  obtain ⟨hdvd, hle⟩ := kawasakiDelta_dvd_le N s u v hpm hu hv hsu hsv
  exact ⟨by omega, kawasakiExponent_get β (by omega) hle⟩

/-- A concrete 4×4 configuration reaching the boundary value `Δ = 16`:
all spins `+1` except a down plus-shaped cluster centred at `(2,2)`. -/
def c4grid : Grid := fun i j =>
  if (i = 2 ∧ j = 2) ∨ (i = 1 ∧ j = 2) ∨ (i = 3 ∧ j = 2) ∨
     (i = 2 ∧ j = 1) ∨ (i = 2 ∧ j = 3) then -1 else 1

theorem kawasaki_delta_bounded_table_ok_witness :
    (PMGrid 4 c4grid ∧ inR 4 ((0 : ℤ), (0 : ℤ)) ∧ inR 4 ((2 : ℤ), (2 : ℤ)) ∧
     c4grid 0 0 = 1 ∧ c4grid 2 2 = -1 ∧
     0 < kawasakiDelta 4 c4grid (0, 0) (2, 2)) ∧
    ((kawasakiDelta 4 c4grid (0, 0) (2, 2) = 4 ∨
      kawasakiDelta 4 c4grid (0, 0) (2, 2) = 8 ∨
      kawasakiDelta 4 c4grid (0, 0) (2, 2) = 12 ∨
      kawasakiDelta 4 c4grid (0, 0) (2, 2) = 16) ∧
     npGet (kawasakiExponent 1) (kawasakiDelta 4 c4grid (0, 0) (2, 2) - 1) =
       some (Real.exp (-(kawasakiDelta 4 c4grid (0, 0) (2, 2) : ℝ) * 1))) :=
  ⟨⟨by decide, by decide, by decide, by decide, by decide, by decide⟩,
    kawasaki_delta_bounded_table_ok 4 c4grid (0, 0) (2, 2) 1 (by decide)
      (by decide) (by decide) (by decide) (by decide) (by decide)⟩

/-! ## C1, C2: the Kawasaki occupancy-list invariant and magnetization -/

theorem flipCell_same (s : Grid) (p : ℤ × ℤ) :
    flipCell s p p.1 p.2 = -(s p.1 p.2) := setCell_same s p _

theorem flipCell_other (s : Grid) (p : ℤ × ℤ) {i j : ℤ}
    (h : ¬(i = p.1 ∧ j = p.2)) : flipCell s p i j = s i j := setCell_other s p _ h

/-- Value table of the tentative double flip (up site to `-1`, down site to
`+1`, all other cells unchanged). -/
theorem flip2_val {s : Grid} {u v : ℤ × ℤ} (hsu : s u.1 u.2 = 1)
    (hsv : s v.1 v.2 = -1) (huv : ¬(u.1 = v.1 ∧ u.2 = v.2)) :
    ∀ i j : ℤ, flipCell (flipCell s u) v i j =
      if i = v.1 ∧ j = v.2 then 1
      else if i = u.1 ∧ j = u.2 then -1 else s i j := by
  intro i j
  have hvu : ¬(v.1 = u.1 ∧ v.2 = u.2) := fun h => huv ⟨h.1.symm, h.2.symm⟩
  unfold flipCell setCell
  by_cases h1 : i = v.1 ∧ j = v.2
  · rw [if_pos h1, if_pos h1, if_neg hvu, hsv]
    norm_num
  · rw [if_neg h1, if_neg h1, hsu]

/-- Flipping the same distinct pair of cells twice restores the grid
(the rejection branch of the Kawasaki attempt). -/
theorem flip4_cancel (s : Grid) (u v : ℤ × ℤ)
    (huv : ¬(u.1 = v.1 ∧ u.2 = v.2)) :
    flipCell (flipCell (flipCell (flipCell s u) v) u) v = s := by
  have hvu : ¬(v.1 = u.1 ∧ v.2 = u.2) := fun h => huv ⟨h.1.symm, h.2.symm⟩
  funext i j
  by_cases h1 : i = v.1 ∧ j = v.2
  · rw [h1.1, h1.2]
    rw [flipCell_same, flipCell_other _ _ hvu, flipCell_same,
      flipCell_other _ _ hvu]
    ring
  · by_cases h2 : i = u.1 ∧ j = u.2
    · rw [h2.1, h2.2]
      rw [flipCell_other _ _ huv, flipCell_same, flipCell_other _ _ huv,
        flipCell_same]
      ring
    · rw [flipCell_other _ _ h1, flipCell_other _ _ h2,
        flipCell_other _ _ h1, flipCell_other _ _ h2]

/-- The Kawasaki consistency invariant: the `up`/`down` lists exactly
enumerate the `+1` and `-1` cells (membership, completeness, all cells
`±1`, no duplicates); bounded quantifiers keep it decidable. -/
def KInvD (N : ℕ) (s : Grid) (up down : List (ℤ × ℤ)) : Prop :=
  (∀ p ∈ up, inR N p ∧ s p.1 p.2 = 1) ∧
  (∀ p ∈ down, inR N p ∧ s p.1 p.2 = -1) ∧
  (∀ i ∈ Finset.Ico (0 : ℤ) (N : ℤ), ∀ j ∈ Finset.Ico (0 : ℤ) (N : ℤ),
    (s i j = 1 ∨ s i j = -1) ∧ (s i j = 1 → (i, j) ∈ up) ∧
    (s i j = -1 → (i, j) ∈ down)) ∧
  up.Nodup ∧ down.Nodup

instance (N : ℕ) (s : Grid) (up down : List (ℤ × ℤ)) :
    Decidable (KInvD N s up down) := by
  unfold KInvD; infer_instance

theorem KInvD.pm {N : ℕ} {s : Grid} {up down : List (ℤ × ℤ)}
    (h : KInvD N s up down) : PMGrid N s :=
  fun i hi j hj => (h.2.2.1 i hi j hj).1

/-- Lists consistent with the lattice are disjoint. -/
theorem KInvD.disjoint {N : ℕ} {s : Grid} {up down : List (ℤ × ℤ)}
    (h : KInvD N s up down) : ∀ p ∈ up, p ∉ down := by
  intro p hpu hpd
  have h1 := (h.1 p hpu).2
  have h2 := (h.2.1 p hpd).2
  rw [h1] at h2
  exact absurd h2 (by decide)

/-- Consistent duplicate-free lists enumerate all `N²` cells. -/
theorem KInvD.length_sum {N : ℕ} {s : Grid} {up down : List (ℤ × ℤ)}
    (h : KInvD N s up down) : up.length + down.length = N * N := by
  classical
  obtain ⟨hup, hdown, hcells, hndu, hndd⟩ := h
  have hupset : up.toFinset =
      ((Finset.Ico (0 : ℤ) (N : ℤ)) ×ˢ (Finset.Ico (0 : ℤ) (N : ℤ))).filter
        (fun p => s p.1 p.2 = 1) := by
    ext p
    simp only [List.mem_toFinset, Finset.mem_filter, Finset.mem_product,
      Finset.mem_Ico]
    constructor
    · intro hp
      obtain ⟨⟨r1, r2, r3, r4⟩, hs⟩ := hup p hp
      exact ⟨⟨⟨r1, r2⟩, ⟨r3, r4⟩⟩, hs⟩
    · rintro ⟨⟨⟨r1, r2⟩, ⟨r3, r4⟩⟩, hs⟩
      have hm := (hcells p.1 (Finset.mem_Ico.mpr ⟨r1, r2⟩) p.2
        (Finset.mem_Ico.mpr ⟨r3, r4⟩)).2.1 hs
      rwa [Prod.mk.eta] at hm
  have hdownset : down.toFinset =
      ((Finset.Ico (0 : ℤ) (N : ℤ)) ×ˢ (Finset.Ico (0 : ℤ) (N : ℤ))).filter
        (fun p => ¬ s p.1 p.2 = 1) := by
    ext p
    simp only [List.mem_toFinset, Finset.mem_filter, Finset.mem_product,
      Finset.mem_Ico]
    constructor
    · intro hp
      obtain ⟨⟨r1, r2, r3, r4⟩, hs⟩ := hdown p hp
      refine ⟨⟨⟨r1, r2⟩, ⟨r3, r4⟩⟩, fun h1 => ?_⟩
      rw [h1] at hs
      exact absurd hs (by decide)
    · rintro ⟨⟨⟨r1, r2⟩, ⟨r3, r4⟩⟩, hs⟩
      have hpm := (hcells p.1 (Finset.mem_Ico.mpr ⟨r1, r2⟩) p.2
        (Finset.mem_Ico.mpr ⟨r3, r4⟩)).1
      have hm := (hcells p.1 (Finset.mem_Ico.mpr ⟨r1, r2⟩) p.2
        (Finset.mem_Ico.mpr ⟨r3, r4⟩)).2.2 (by tauto)
      rwa [Prod.mk.eta] at hm
  have hcard : up.length + down.length =
      (((Finset.Ico (0 : ℤ) (N : ℤ)) ×ˢ (Finset.Ico (0 : ℤ) (N : ℤ))).filter
        (fun p => s p.1 p.2 = 1)).card +
      (((Finset.Ico (0 : ℤ) (N : ℤ)) ×ˢ (Finset.Ico (0 : ℤ) (N : ℤ))).filter
        (fun p => ¬ s p.1 p.2 = 1)).card := by
    rw [← hupset, ← hdownset, List.toFinset_card_of_nodup hndu,
      List.toFinset_card_of_nodup hndd]
  rw [hcard, Finset.filter_card_add_filter_neg_card_eq_card,
    Finset.card_product, Int.card_Ico]
  simp

/-- An accepted exchange restores the invariant: the tentative double flip
together with the `coord_swap` of the two list entries keeps the `up` and
`down` lists exactly enumerating the `+1` and `-1` cells. -/
theorem kawasaki_accept_inv {N : ℕ} {s : Grid} {up down : List (ℤ × ℤ)}
    {p1 p2 : ℕ} {u v : ℤ × ℤ} (hinv : KInvD N s up down)
    (hu : up.get? p1 = some u) (hv : down.get? p2 = some v) :
    KInvD N (flipCell (flipCell s u) v) (up.set p1 v) (down.set p2 u) := by
  obtain ⟨hup, hdown, hcells, hndu, hndd⟩ := hinv
  obtain ⟨huR, hsu⟩ := hup u (List.get?_mem hu)
  obtain ⟨hvR, hsv⟩ := hdown v (List.get?_mem hv)
  have huv : ¬(u.1 = v.1 ∧ u.2 = v.2) := by
    rintro ⟨h1, h2⟩
    rw [h1, h2, hsv] at hsu
    exact absurd hsu (by decide)
  have hvu : ¬(v.1 = u.1 ∧ v.2 = u.2) := fun h => huv ⟨h.1.symm, h.2.symm⟩
  have hval := flip2_val hsu hsv huv
  obtain ⟨hp1len, -⟩ := List.get?_eq_some.mp hu
  obtain ⟨hp2len, -⟩ := List.get?_eq_some.mp hv
  refine ⟨?_, ?_, ?_, ?_, ?_⟩
  · intro p hp
    rcases mem_set_cases hndu hu hp with hpv | ⟨hpu, hpne⟩
    · subst hpv
      exact ⟨hvR, by rw [hval, if_pos ⟨rfl, rfl⟩]⟩
    · obtain ⟨hpR, hps⟩ := hup p hpu
      have hpv' : ¬(p.1 = v.1 ∧ p.2 = v.2) := by
        rintro ⟨h1, h2⟩
        rw [h1, h2, hsv] at hps
        exact absurd hps (by decide)
      have hpu' : ¬(p.1 = u.1 ∧ p.2 = u.2) :=
        fun hh => hpne (Prod.ext_iff.mpr hh)
      exact ⟨hpR, by rw [hval, if_neg hpv', if_neg hpu']; exact hps⟩
  · intro p hp
    rcases mem_set_cases hndd hv hp with hpu | ⟨hpd, hpne⟩
    · subst hpu
      exact ⟨huR, by rw [hval, if_neg huv, if_pos ⟨rfl, rfl⟩]⟩
    · obtain ⟨hpR, hps⟩ := hdown p hpd
      have hpu' : ¬(p.1 = u.1 ∧ p.2 = u.2) := by
        rintro ⟨h1, h2⟩
        rw [h1, h2, hsu] at hps
        exact absurd hps (by decide)
      have hpv' : ¬(p.1 = v.1 ∧ p.2 = v.2) :=
        fun hh => hpne (Prod.ext_iff.mpr hh)
      exact ⟨hpR, by rw [hval, if_neg hpv', if_neg hpu']; exact hps⟩
  · intro i hi j hj
    obtain ⟨hpm0, hc1, hc2⟩ := hcells i hi j hj
    refine ⟨?_, ?_, ?_⟩
    · rw [hval]
      split
      · left; rfl
      · split
        · right; rfl
        · exact hpm0
    · intro h1
      by_cases hcv : i = v.1 ∧ j = v.2
      · rw [hcv.1, hcv.2, Prod.mk.eta]
        exact mem_set_self hp1len v
      · rw [hval, if_neg hcv] at h1
        by_cases hcu : i = u.1 ∧ j = u.2
        · rw [if_pos hcu] at h1
          exact absurd h1 (by decide)
        · rw [if_neg hcu] at h1
          refine mem_set_of_ne_idx (hc1 h1) ?_
          rw [hu]
          intro hh
          have heq := Option.some.inj hh
          exact hcu ⟨congrArg Prod.fst heq.symm, congrArg Prod.snd heq.symm⟩
    · intro h1
      by_cases hcu : i = u.1 ∧ j = u.2
      · rw [hcu.1, hcu.2, Prod.mk.eta]
        exact mem_set_self hp2len u
      · by_cases hcv : i = v.1 ∧ j = v.2
        · rw [hval, if_pos hcv] at h1
          exact absurd h1 (by decide)
        · rw [hval, if_neg hcv, if_neg hcu] at h1
          refine mem_set_of_ne_idx (hc2 h1) ?_
          rw [hv]
          intro hh
          have heq := Option.some.inj hh
          exact hcv ⟨congrArg Prod.fst heq.symm, congrArg Prod.snd heq.symm⟩
  · refine nodup_set hndu (fun hvin => ?_)
    have h1 := (hup v hvin).2
    rw [hsv] at h1
    exact absurd h1 (by decide)
  · refine nodup_set hndd (fun huin => ?_)
    have h1 := (hdown u huin).2
    rw [hsu] at h1
    exact absurd h1 (by decide)

/-- Total magnetization: the sum of all in-range lattice cells. -/
def mag (N : ℕ) (s : Grid) : ℤ :=
  ∑ i ∈ Finset.Ico (0 : ℤ) (N : ℤ), ∑ j ∈ Finset.Ico (0 : ℤ) (N : ℤ), s i j

theorem mag_setCell {N : ℕ} {s : Grid} {p : ℤ × ℤ} (hp : inR N p) (v : ℤ) :
    mag N (setCell s p v) = mag N s - s p.1 p.2 + v := by
  obtain ⟨h1, h2, h3, h4⟩ := hp
  have hm1 : p.1 ∈ Finset.Ico (0 : ℤ) (N : ℤ) := Finset.mem_Ico.mpr ⟨h1, h2⟩
  have hm2 : p.2 ∈ Finset.Ico (0 : ℤ) (N : ℤ) := Finset.mem_Ico.mpr ⟨h3, h4⟩
  unfold mag setCell
  have hptw : ∀ i j : ℤ, (if i = p.1 ∧ j = p.2 then v else s i j) =
      s i j + (if i = p.1 ∧ j = p.2 then v - s p.1 p.2 else 0) := by
    intro i j
    by_cases h : i = p.1 ∧ j = p.2
    · rw [if_pos h, if_pos h, h.1, h.2]
      ring
    · rw [if_neg h, if_neg h]
      ring
  have hsum1 : ∑ i ∈ Finset.Ico (0 : ℤ) (N : ℤ),
      ∑ j ∈ Finset.Ico (0 : ℤ) (N : ℤ),
        (if i = p.1 ∧ j = p.2 then v else s i j) =
      ∑ i ∈ Finset.Ico (0 : ℤ) (N : ℤ),
        ∑ j ∈ Finset.Ico (0 : ℤ) (N : ℤ),
          (s i j + (if i = p.1 ∧ j = p.2 then v - s p.1 p.2 else 0)) :=
    Finset.sum_congr rfl fun i _ =>
      Finset.sum_congr rfl fun j _ => hptw i j
  rw [hsum1]
  have hsplit : ∀ i ∈ Finset.Ico (0 : ℤ) (N : ℤ),
      ∑ j ∈ Finset.Ico (0 : ℤ) (N : ℤ),
        (s i j + (if i = p.1 ∧ j = p.2 then v - s p.1 p.2 else 0)) =
      (∑ j ∈ Finset.Ico (0 : ℤ) (N : ℤ), s i j) +
        (if i = p.1 then v - s p.1 p.2 else 0) := by
    intro i _
    rw [Finset.sum_add_distrib]
    congr 1
    by_cases hi : i = p.1
    · subst hi
      have hjj : ∀ j : ℤ, (if p.1 = p.1 ∧ j = p.2 then v - s p.1 p.2 else 0) =
          (if j = p.2 then v - s p.1 p.2 else 0) := by
        intro j
        by_cases hj : j = p.2
        · rw [if_pos ⟨rfl, hj⟩, if_pos hj]
        · rw [if_neg (fun hh => hj hh.2), if_neg hj]
      rw [Finset.sum_congr rfl fun j _ => hjj j,
        Finset.sum_ite_eq' _ p.2 (fun _ => v - s p.1 p.2), if_pos hm2,
        if_pos rfl]
    · rw [if_neg hi]
      refine Finset.sum_eq_zero fun j _ => ?_
      rw [if_neg (fun hh => hi hh.1)]
  rw [Finset.sum_congr rfl hsplit, Finset.sum_add_distrib,
    Finset.sum_ite_eq' _ p.1 (fun _ => v - s p.1 p.2), if_pos hm1]
  ring

theorem mag_flipCell {N : ℕ} {s : Grid} {p : ℤ × ℤ} (hp : inR N p) :
    mag N (flipCell s p) = mag N s - 2 * s p.1 p.2 := by
  unfold flipCell
  rw [mag_setCell hp]
  ring

/-- An accepted exchange does not change the magnetization: one `+1` cell
and one `-1` cell are both negated. -/
theorem mag_flip2 {N : ℕ} {s : Grid} {u v : ℤ × ℤ} (huR : inR N u)
    (hvR : inR N v) (hsu : s u.1 u.2 = 1) (hsv : s v.1 v.2 = -1) :
    mag N (flipCell (flipCell s u) v) = mag N s := by
  have huv : ¬(v.1 = u.1 ∧ v.2 = u.2) := by
    rintro ⟨h1, h2⟩
    rw [h1, h2, hsu] at hsv
    exact absurd hsv (by decide)
  have hval : flipCell s u v.1 v.2 = s v.1 v.2 := flipCell_other s u huv
  rw [mag_flipCell hvR, mag_flipCell huR, hval, hsu, hsv]
  ring

/-- One Kawasaki attempt body: the invariant, the list lengths and the
magnetization are preserved by every possible outcome. -/
theorem kawasakiBody_inv {N : ℕ} {β : ℝ} {rs : RS} {s : Grid}
    {up down : List (ℤ × ℤ)} {k p1 p2 : ℕ} {u v : ℤ × ℤ}
    (hinv : KInvD N s up down)
    (hu : up.get? p1 = some u) (hv : down.get? p2 = some v) :
    ∀ y, kawasakiBody N β rs s up down k p1 p2 u v = some y →
      KInvD N y.1 y.2.1 y.2.2.1 ∧ y.2.1.length = up.length ∧
        y.2.2.1.length = down.length ∧ mag N y.1 = mag N s := by
  obtain ⟨huR, hsu⟩ := hinv.1 u (List.get?_mem hu)
  obtain ⟨hvR, hsv⟩ := hinv.2.1 v (List.get?_mem hv)
  have huv : ¬(u.1 = v.1 ∧ u.2 = v.2) := by
    rintro ⟨h1, h2⟩
    rw [h1, h2, hsv] at hsu
    exact absurd hsu (by decide)
  have hcs1 : (coord_swap up down p1 p2).1 = up.set p1 v := by
    unfold coord_swap
    rw [getD_of_get? _ hv]
  have hcs2 : (coord_swap up down p1 p2).2 = down.set p2 u := by
    unfold coord_swap
    rw [getD_of_get? _ hu]
  have haccept : KInvD N (flipCell (flipCell s u) v)
      (coord_swap up down p1 p2).1 (coord_swap up down p1 p2).2 := by
    rw [hcs1, hcs2]
    exact kawasaki_accept_inv hinv hu hv
  intro y hy
  unfold kawasakiBody at hy
  split at hy
  · injection hy with h
    subst h
    exact ⟨haccept, by rw [hcs1, List.length_set],
      by rw [hcs2, List.length_set], mag_flip2 huR hvR hsu hsv⟩
  · unfold tryAccept at hy
    split at hy
    · exact absurd hy (by simp)
    · split at hy
      · injection hy with h
        subst h
        exact ⟨haccept, by rw [hcs1, List.length_set],
          by rw [hcs2, List.length_set], mag_flip2 huR hvR hsu hsv⟩
      · injection hy with h
        subst h
        refine ⟨?_, rfl, rfl, ?_⟩
        · show KInvD N (flipCell (flipCell (flipCell (flipCell s u) v) u) v)
            up down
          rw [flip4_cancel s u v huv]
          exact hinv
        · show mag N (flipCell (flipCell (flipCell (flipCell s u) v) u) v)
            = mag N s
          rw [flip4_cancel s u v huv]

/-- One Kawasaki attempt preserves the invariant, the lengths and the
magnetization. -/
theorem kawasakiStep_inv {N : ℕ} {β : ℝ} {rs : RS}
    (x : Grid × List (ℤ × ℤ) × List (ℤ × ℤ) × ℕ)
    (hinv : KInvD N x.1 x.2.1 x.2.2.1) :
    ∀ y, kawasakiStep N β rs x = some y →
      KInvD N y.1 y.2.1 y.2.2.1 ∧ y.2.1.length = x.2.1.length ∧
        y.2.2.1.length = x.2.2.1.length ∧ mag N y.1 = mag N x.1 := by
  obtain ⟨s, up, down, k⟩ := x
  intro y hy
  simp only [kawasakiStep] at hy
  split at hy
  · exact absurd hy (by simp)
  · split at hy
    · next u v hu hv =>
      exact kawasakiBody_inv hinv hu hv y hy
    · exact absurd hy (by simp)

theorem kawasaki_iter_inv {N : ℕ} {β : ℝ} {rs : RS} :
    ∀ (n : ℕ) (x : Grid × List (ℤ × ℤ) × List (ℤ × ℤ) × ℕ),
      KInvD N x.1 x.2.1 x.2.2.1 →
      ∀ y, iterOpt (kawasakiStep N β rs) n x = some y →
        KInvD N y.1 y.2.1 y.2.2.1 ∧ y.2.1.length = x.2.1.length ∧
          y.2.2.1.length = x.2.2.1.length ∧ mag N y.1 = mag N x.1 := by
  intro n
  induction n with
  | zero =>
    intro x hx y hy
    cases hy
    exact ⟨hx, rfl, rfl, rfl⟩
  | succ n ih =>
    intro x hx y hy
    have hbind : (kawasakiStep N β rs x).bind
        (iterOpt (kawasakiStep N β rs) n) = some y := hy
    cases hz : kawasakiStep N β rs x with
    | none => rw [hz] at hbind; exact absurd hbind (by simp)
    | some z =>
      rw [hz] at hbind
      obtain ⟨hzi, hzl1, hzl2, hzm⟩ := kawasakiStep_inv x hx z hz
      obtain ⟨hyi, hyl1, hyl2, hym⟩ := ih z hzi y hbind
      exact ⟨hyi, by rw [hyl1, hzl1], by rw [hyl2, hzl2], by rw [hym, hzm]⟩

/-- C1: for any lattice whose cells are all `±1` and whose non-empty
occupancy lists exactly enumerate its `+1` and `-1` cells, after
`update_state_kawasaki` returns the lists again exactly enumerate the
cells of the returned lattice: every `up` entry maps to `+1`, every
`down` entry to `-1`, the lists stay duplicate-free and disjoint, and
`|up| + |down| = N²`. -/
theorem kawasaki_lists_stay_synced (up down : List (ℤ × ℤ)) (s : Grid)
    (N : ℕ) (β : ℝ) (rs : RS) (k : ℕ) (hinv : KInvD N s up down)
    (hup : 0 < up.length) (hdown : 0 < down.length) :
    ∀ y ∈ update_state_kawasaki up down s N β rs k,
      KInvD N y.1 y.2.1 y.2.2.1 ∧ (∀ p ∈ y.2.1, p ∉ y.2.2.1) ∧
        y.2.1.length + y.2.2.1.length = N * N := by
  intro y hy
  obtain ⟨hyi, hl1, hl2, -⟩ := kawasaki_iter_inv (N * N) (s, up, down, k)
    hinv y (Option.mem_def.mp hy)
  refine ⟨hyi, hyi.disjoint, ?_⟩
  calc y.2.1.length + y.2.2.1.length = up.length + down.length := by
        rw [hl1, hl2]
    _ = N * N := hinv.length_sum

theorem kawasaki_lists_stay_synced_witness :
    (KInvD 2 (fun i j => if (i + j) % 2 = 0 then 1 else -1)
        [((0 : ℤ), (0 : ℤ)), ((1 : ℤ), (1 : ℤ))]
        [((0 : ℤ), (1 : ℤ)), ((1 : ℤ), (0 : ℤ))] ∧
      0 < ([((0 : ℤ), (0 : ℤ)), ((1 : ℤ), (1 : ℤ))] :
        List (ℤ × ℤ)).length) ∧
    ∀ y ∈ update_state_kawasaki
        [((0 : ℤ), (0 : ℤ)), ((1 : ℤ), (1 : ℤ))]
        [((0 : ℤ), (1 : ℤ)), ((1 : ℤ), (0 : ℤ))]
        (fun i j => if (i + j) % 2 = 0 then 1 else -1) 2 0
        ⟨fun _ => 0, fun _ => 0⟩ 0,
      KInvD 2 y.1 y.2.1 y.2.2.1 ∧ (∀ p ∈ y.2.1, p ∉ y.2.2.1) ∧
        y.2.1.length + y.2.2.1.length = 2 * 2 :=
  ⟨⟨by decide, by decide⟩,
    kawasaki_lists_stay_synced _ _ _ 2 0 ⟨fun _ => 0, fun _ => 0⟩ 0
      (by decide) (by decide) (by decide)⟩

/-- Repeated calls of the Kawasaki sweep, threading the lattice, the two
occupancy lists and the random stream from call to call. -/
noncomputable def kawasakiCalls (N : ℕ) (β : ℝ) (rs : RS) :
    ℕ → Grid × List (ℤ × ℤ) × List (ℤ × ℤ) × ℕ →
      Option (Grid × List (ℤ × ℤ) × List (ℤ × ℤ) × ℕ)
  | 0, x => some x
  | m + 1, x =>
    (update_state_kawasaki x.2.1 x.2.2.1 x.1 N β rs x.2.2.2).bind
      (kawasakiCalls N β rs m)

theorem kawasakiCalls_inv {N : ℕ} {β : ℝ} {rs : RS} :
    ∀ (m : ℕ) (x : Grid × List (ℤ × ℤ) × List (ℤ × ℤ) × ℕ),
      KInvD N x.1 x.2.1 x.2.2.1 →
      ∀ y, kawasakiCalls N β rs m x = some y →
        KInvD N y.1 y.2.1 y.2.2.1 ∧ mag N y.1 = mag N x.1 := by
  intro m
  induction m with
  | zero =>
    intro x hx y hy
    cases hy
    exact ⟨hx, rfl⟩
  | succ m ih =>
    intro x hx y hy
    have hbind : (update_state_kawasaki x.2.1 x.2.2.1 x.1 N β rs
        x.2.2.2).bind (kawasakiCalls N β rs m) = some y := hy
    cases hz : update_state_kawasaki x.2.1 x.2.2.1 x.1 N β rs x.2.2.2 with
    | none => rw [hz] at hbind; exact absurd hbind (by simp)
    | some z =>
      rw [hz] at hbind
      obtain ⟨hzi, -, -, hzm⟩ := kawasaki_iter_inv (N * N)
        (x.1, x.2.1, x.2.2.1, x.2.2.2) hx z (Option.mem_def.mp hz)
      obtain ⟨hyi, hym⟩ := ih z hzi y hbind
      exact ⟨hyi, by rw [hym, hzm]⟩

/-- C2: for every valid Kawasaki input (consistent occupancy lists over an
all-`±1` lattice), the total magnetization — the sum of all lattice
cells — is unchanged after any number of `update_state_kawasaki` calls,
for every random stream. -/
theorem kawasaki_magnetization_conserved (up down : List (ℤ × ℤ))
    (s : Grid) (N : ℕ) (β : ℝ) (rs : RS) (k m : ℕ)
    (hinv : KInvD N s up down) :
    ∀ y ∈ kawasakiCalls N β rs m (s, up, down, k), mag N y.1 = mag N s :=
  fun y hy =>
    (kawasakiCalls_inv m (s, up, down, k) hinv y (Option.mem_def.mp hy)).2

theorem kawasaki_magnetization_conserved_witness :
    KInvD 2 (fun i j => if (i + j) % 2 = 0 then 1 else -1)
        [((0 : ℤ), (0 : ℤ)), ((1 : ℤ), (1 : ℤ))]
        [((0 : ℤ), (1 : ℤ)), ((1 : ℤ), (0 : ℤ))] ∧
    ∀ y ∈ kawasakiCalls 2 0 ⟨fun _ => 0, fun _ => 0⟩ 3
        ((fun i j => if (i + j) % 2 = 0 then 1 else -1),
          [((0 : ℤ), (0 : ℤ)), ((1 : ℤ), (1 : ℤ))],
          [((0 : ℤ), (1 : ℤ)), ((1 : ℤ), (0 : ℤ))], 0),
      mag 2 y.1 = mag 2 (fun i j => if (i + j) % 2 = 0 then 1 else -1) :=
  ⟨by decide,
    kawasaki_magnetization_conserved _ _ _ 2 0 ⟨fun _ => 0, fun _ => 0⟩ 0 3
      (by decide)⟩

/-! ## C8: closure of all four engines -/

theorem iterOpt_preserves {σ : Type} {P : σ → Prop} {f : σ → Option σ}
    (hf : ∀ x, P x → ∀ y, f x = some y → P y) :
    ∀ (n : ℕ) (x : σ), P x → ∀ y, iterOpt f n x = some y → P y := by
  intro n
  induction n with
  | zero =>
    intro x hx y hy
    cases hy
    exact hx
  | succ n ih =>
    intro x hx y hy
    have hbind : (f x).bind (iterOpt f n) = some y := hy
    cases hz : f x with
    | none => rw [hz] at hbind; exact absurd hbind (by simp)
    | some z =>
      rw [hz] at hbind
      exact ih z (hf x hx z hz) y hbind

theorem iterT_preserves {σ : Type} {P : σ → Prop} {f : σ → σ}
    (hf : ∀ x, P x → P (f x)) :
    ∀ (n : ℕ) (x : σ), P x → P (iterT f n x) := by
  intro n
  induction n with
  | zero => exact fun x hx => hx
  | succ n ih => exact fun x hx => ih (f x) (hf x hx)

theorem isingStep_pm {N : ℕ} {β : ℝ} {rs : RS} (x : Grid × ℕ)
    (hpm : PMGrid N x.1) :
    ∀ y, isingStep N β rs x = some y → PMGrid N y.1 := by
  intro y hy
  exact isingBody_pm hpm y hy

/-- Repeated full Ising sweeps. -/
noncomputable def isingCalls (N : ℕ) (β : ℝ) (rs : RS) :
    ℕ → Grid × ℕ → Option (Grid × ℕ)
  | 0, x => some x
  | m + 1, x =>
    (update_state_ising x.1 N β rs x.2).bind (isingCalls N β rs m)

theorem isingCalls_pm {N : ℕ} {β : ℝ} {rs : RS} :
    ∀ (m : ℕ) (x : Grid × ℕ), PMGrid N x.1 →
      ∀ y, isingCalls N β rs m x = some y → PMGrid N y.1 := by
  intro m
  induction m with
  | zero =>
    intro x hx y hy
    cases hy
    exact hx
  | succ m ih =>
    intro x hx y hy
    have hbind : (update_state_ising x.1 N β rs x.2).bind
        (isingCalls N β rs m) = some y := hy
    cases hz : update_state_ising x.1 N β rs x.2 with
    | none => rw [hz] at hbind; exact absurd hbind (by simp)
    | some z =>
      rw [hz] at hbind
      have hzpm : PMGrid N z.1 :=
        iterOpt_preserves (P := fun w : Grid × ℕ => PMGrid N w.1)
          (fun w hw y hy2 => isingStep_pm w hw y hy2) (N * N) (x.1, x.2) hx
          z hz
      exact ih z hzpm y hbind

theorem kawasakiBody_pm {N : ℕ} {β : ℝ} {rs : RS} {s : Grid}
    {up down : List (ℤ × ℤ)} {k p1 p2 : ℕ} {u v : ℤ × ℤ}
    (hpm : PMGrid N s) :
    ∀ y, kawasakiBody N β rs s up down k p1 p2 u v = some y →
      PMGrid N y.1 := by
  intro y hy
  unfold kawasakiBody at hy
  split at hy
  · injection hy with h
    subst h
    exact pm_flipCell (pm_flipCell hpm u) v
  · unfold tryAccept at hy
    split at hy
    · exact absurd hy (by simp)
    · split at hy
      · injection hy with h
        subst h
        exact pm_flipCell (pm_flipCell hpm u) v
      · injection hy with h
        subst h
        exact pm_flipCell (pm_flipCell
          (pm_flipCell (pm_flipCell hpm u) v) u) v

theorem kawasakiStep_pm {N : ℕ} {β : ℝ} {rs : RS}
    (x : Grid × List (ℤ × ℤ) × List (ℤ × ℤ) × ℕ) (hpm : PMGrid N x.1) :
    ∀ y, kawasakiStep N β rs x = some y → PMGrid N y.1 := by
  obtain ⟨s, up, down, k⟩ := x
  intro y hy
  simp only [kawasakiStep] at hy
  split at hy
  · exact absurd hy (by simp)
  · split at hy
    · exact kawasakiBody_pm hpm y hy
    · exact absurd hy (by simp)

theorem kawasakiCalls_pm {N : ℕ} {β : ℝ} {rs : RS} :
    ∀ (m : ℕ) (x : Grid × List (ℤ × ℤ) × List (ℤ × ℤ) × ℕ),
      PMGrid N x.1 → ∀ y, kawasakiCalls N β rs m x = some y →
        PMGrid N y.1 := by
  intro m
  induction m with
  | zero =>
    intro x hx y hy
    cases hy
    exact hx
  | succ m ih =>
    intro x hx y hy
    have hbind : (update_state_kawasaki x.2.1 x.2.2.1 x.1 N β rs
        x.2.2.2).bind (kawasakiCalls N β rs m) = some y := hy
    cases hz : update_state_kawasaki x.2.1 x.2.2.1 x.1 N β rs x.2.2.2 with
    | none => rw [hz] at hbind; exact absurd hbind (by simp)
    | some z =>
      rw [hz] at hbind
      have hzpm : PMGrid N z.1 :=
        iterOpt_preserves
          (P := fun w : Grid × List (ℤ × ℤ) × List (ℤ × ℤ) × ℕ =>
            PMGrid N w.1)
          (fun w hw y hy2 => kawasakiStep_pm w hw y hy2) (N * N)
          (x.1, x.2.1, x.2.2.1, x.2.2.2) hx z hz
      exact ih z hzpm y hbind

/-- The Wolff step returns a `±1`-valued lattice whenever it gets one. -/
theorem stepMC_pm {g : Grid} {N : ℕ} {kT : ℝ} {rs : ℕ → ℝ}
    (hpm : PMGrid N g) :
    ∀ r, stepMC g N kT rs = some r → PMGrid N r.2 := by
  intro r hr
  unfold stepMC at hr
  split at hr
  · next i j h0 h1 =>
    injection hr with h
    subst h
    set q : WSt := (update N (1 - Real.exp (-(2 : ℝ) * kT)) rs (N * N)
      ⟨g, fun _ _ => 1⟩ (i, j) 2).1 with hq
    intro a ha b hb
    have hlat : q.lat a b = g a b := by rw [hq, update_lat_eq]
    have hmark : q.mark a b = 1 ∨ q.mark a b = -1 := by
      rw [hq]
      exact update_mark_pm _ _ _ _ _ _ _ (fun _ _ => Or.inl rfl) a b
    show q.lat a b * q.mark a b = 1 ∨ q.lat a b * q.mark a b = -1
    rw [hlat]
    rcases hpm a ha b hb with hg1 | hg1 <;> rcases hmark with hm | hm <;>
      rw [hg1, hm] <;> norm_num
  · exact absurd hr (by simp)

/-- Repeated Wolff cluster flips, each call on the lattice returned by the
previous one, with a fresh random stream per call. -/
noncomputable def wolffCalls (N : ℕ) (kT : ℝ) (streams : ℕ → ℕ → ℝ) :
    ℕ → Grid → Option Grid
  | 0, g => some g
  | m + 1, g =>
    (stepMC g N kT (streams m)).bind
      (fun r => wolffCalls N kT streams m r.2)

theorem wolffCalls_pm {N : ℕ} {kT : ℝ} {streams : ℕ → ℕ → ℝ} :
    ∀ (m : ℕ) (g : Grid), PMGrid N g →
      ∀ y, wolffCalls N kT streams m g = some y → PMGrid N y := by
  intro m
  induction m with
  | zero =>
    intro g hg y hy
    cases hy
    exact hg
  | succ m ih =>
    intro g hg y hy
    have hbind : (stepMC g N kT (streams m)).bind
        (fun r => wolffCalls N kT streams m r.2) = some y := hy
    cases hz : stepMC g N kT (streams m) with
    | none => rw [hz] at hbind; exact absurd hbind (by simp)
    | some r =>
      rw [hz] at hbind
      exact ih r.2 (stepMC_pm hg r hz) y hbind

theorem get_neighbor_pm {N : ℕ} {s : Grid} {pos : ℤ × ℤ} {rs : RS} {k : ℕ}
    (hpm : PMGrid N s) (hpos : inR N pos) :
    (get_neighbor N s pos rs k).1 = 1 ∨ (get_neighbor N s pos rs k).1 = -1 := by
  obtain ⟨h1, h2, h3, h4⟩ := hpos
  have hN0 : (0 : ℤ) < (N : ℤ) := by omega
  have hNne : (N : ℤ) ≠ 0 := by omega
  unfold get_neighbor
  by_cases ha : rs.reals k < 1 / 2
  · rw [if_pos ha, if_neg (by decide : ¬ (1 : ℕ) = 0)]
    exact hpm.at2 h1 h2 (Int.emod_nonneg _ hNne) (Int.emod_lt_of_pos _ hN0)
  · rw [if_neg ha, if_pos rfl]
    exact hpm.at2 (Int.emod_nonneg _ hNne) (Int.emod_lt_of_pos _ hN0) h3 h4

theorem voterStep_pm {N : ℕ} {prob : ℝ} {rs : RS} (x : Grid × ℕ)
    (hpm : PMGrid N x.1) : PMGrid N (voterStep N prob rs x).1 := by
  unfold voterStep
  split
  · refine pm_setCell hpm _ _ (fun _ => ?_)
    split
    · left; rfl
    · right; rfl
  · exact pm_setCell hpm _ _ (fun hp => get_neighbor_pm hpm hp)

/-- Repeated full voter sweeps. -/
noncomputable def voterCalls (N : ℕ) (prob : ℝ) (rs : RS) :
    ℕ → Grid × ℕ → Grid × ℕ
  | 0, x => x
  | m + 1, x =>
    voterCalls N prob rs m (update_state_voter x.1 N prob rs x.2)

theorem voterCalls_pm {N : ℕ} {prob : ℝ} {rs : RS} :
    ∀ (m : ℕ) (x : Grid × ℕ), PMGrid N x.1 →
      PMGrid N (voterCalls N prob rs m x).1 := by
  intro m
  induction m with
  | zero => exact fun x hx => hx
  | succ m ih =>
    intro x hx
    refine ih _ ?_
    exact iterT_preserves (P := fun w : Grid × ℕ => PMGrid N w.1)
      (fun w hw => voterStep_pm w hw) (N * N) (x.1, x.2) hx

/-- C8: closure — for each of the four engines (Glauber/Metropolis Ising,
Kawasaki, Wolff, voter), if every in-range cell of the input lattice is in
`{+1, -1}` then so is every in-range cell after any number of sweeps. -/
theorem engines_preserve_spins :
    (∀ (N : ℕ) (β : ℝ) (rs : RS) (s : Grid) (k m : ℕ), PMGrid N s →
      ∀ y ∈ isingCalls N β rs m (s, k), PMGrid N y.1) ∧
    (∀ (N : ℕ) (β : ℝ) (rs : RS) (s : Grid) (up down : List (ℤ × ℤ))
      (k m : ℕ), PMGrid N s →
      ∀ y ∈ kawasakiCalls N β rs m (s, up, down, k), PMGrid N y.1) ∧
    (∀ (N : ℕ) (kT : ℝ) (streams : ℕ → ℕ → ℝ) (g : Grid) (m : ℕ),
      PMGrid N g → ∀ y ∈ wolffCalls N kT streams m g, PMGrid N y) ∧
    (∀ (N : ℕ) (prob : ℝ) (rs : RS) (s : Grid) (k m : ℕ), PMGrid N s →
      PMGrid N (voterCalls N prob rs m (s, k)).1) :=
  ⟨fun N β rs s k m hpm y hy =>
      isingCalls_pm m (s, k) hpm y (Option.mem_def.mp hy),
    fun N β rs s up down k m hpm y hy =>
      kawasakiCalls_pm m (s, up, down, k) hpm y (Option.mem_def.mp hy),
    fun N kT streams g m hpm y hy =>
      wolffCalls_pm m g hpm y (Option.mem_def.mp hy),
    fun N prob rs s k m hpm => voterCalls_pm m (s, k) hpm⟩

theorem engines_preserve_spins_witness :
    PMGrid 2 (fun _ _ => 1) ∧
    (∀ y ∈ isingCalls 2 1 ⟨fun _ => 0, fun _ => 0⟩ 1 ((fun _ _ => 1), 0),
      PMGrid 2 y.1) ∧
    (∀ y ∈ kawasakiCalls 2 1 ⟨fun _ => 0, fun _ => 0⟩ 1
        ((fun _ _ => 1), [((0 : ℤ), (0 : ℤ))], [((1 : ℤ), (1 : ℤ))], 0),
      PMGrid 2 y.1) ∧
    (∀ y ∈ wolffCalls 2 1 (fun _ _ => 0) 1 (fun _ _ => 1), PMGrid 2 y) ∧
    PMGrid 2 (voterCalls 2 0 ⟨fun _ => 0, fun _ => 0⟩ 1
      ((fun _ _ => 1), 0)).1 :=
  ⟨by decide,
    engines_preserve_spins.1 2 1 ⟨fun _ => 0, fun _ => 0⟩ (fun _ _ => 1) 0 1
      (by decide),
    engines_preserve_spins.2.1 2 1 ⟨fun _ => 0, fun _ => 0⟩ (fun _ _ => 1)
      [((0 : ℤ), (0 : ℤ))] [((1 : ℤ), (1 : ℤ))] 0 1 (by decide),
    engines_preserve_spins.2.2.1 2 1 (fun _ _ => 0) (fun _ _ => 1) 1
      (by decide),
    engines_preserve_spins.2.2.2 2 0 ⟨fun _ => 0, fun _ => 0⟩
      (fun _ _ => 1) 0 1 (by decide)⟩
